import Mathlib

/-!
# The exclusive-scan collective, the `generate` algorithms and `windows::child` of HPX

A shallow embedding of `libs/full/collectives/include/hpx/collectives/exclusive_scan.hpp`:
the step function and the finalizer that `communication_operation<Communicator,
exclusive_scan_tag>::get` hands to the communicator, and the public
`hpx::collectives::exclusive_scan` overloads; of the overloads of `hpx::generate` and
`hpx::generate_n` without execution policy of
`libs/core/algorithms/include/hpx/parallel/algorithms/generate.hpp`; and of the class
`child` of `components/process/include/hpx/components/process/util/windows/child.hpp`.

Conventions of the embedding

* `std::vector<T>` is a `List α`; `std::size_t` is a `Nat`.
* An access through `operator[]` or through an iterator that falls outside the vector is
  undefined behaviour in C++; the embedding makes it explicit as the error of
  `Except undefined_behaviour`.
* `HPX_MOVE(data[which])` leaves the cell in its moved-from state.  That state is the
  parameter `moved : α → α`; for the arithmetic types a move is a copy and `moved` is `id`,
  for a `std::vector` the moved-from object is empty.
* An exception thrown by a call is the error of `Except error`; an error stored in the
  returned future is the constructor `future.exceptional`.
-/

set_option autoImplicit false

universe u v

namespace hpx

variable {α : Type u} {κ : Type v}

/-- Modelled from the spec: the sequential algorithm `hpx::exclusive_scan(first, last, dest,
init, op)` of `hpx/parallel/algorithms/exclusive_scan.hpp`, which is not among the sources.
The spec calls it "the generic prefix-scan routine", "a prefix computation where each
position's result excludes its own contribution", whose fold starts from the seed `init`:
output `k` is `init` combined, left to right, with the first `k` inputs.  The result is the
sequence of values written through `dest`, one per input element. -/
def exclusive_scan (op : α → α → α) : List α → α → List α
  | [], _ => []
  | x :: xs, init => init :: exclusive_scan op xs (op init x)

/-- Undefined behaviour reached by the C++ code. -/
inductive undefined_behaviour where
  /-- An element access outside the bounds of a vector. -/
  | out_of_bounds_access
  deriving DecidableEq, Repr

namespace traits

/-- The two references `auto& data, bool& data_available` the communicator passes to the
finalizer. -/
structure slot (α : Type u) where
  data : List α
  data_available : Bool
  deriving DecidableEq, Repr

/-- The step function of `communication_operation<Communicator, exclusive_scan_tag>::get`
(exclusive_scan.hpp:289-291): `data[which] = t`, an unchecked `operator[]` write. -/
def step (data : List α) (which : Nat) (t : α) : Except undefined_behaviour (List α) :=
  if which < data.length then .ok (data.set which t) else .error .out_of_bounds_access

/-- The finalizer of `communication_operation<Communicator, exclusive_scan_tag>::get`
(exclusive_scan.hpp:294-325), generic branch (`T` is not `bool`).

If `data_available` is not set, `dest` is resized to `data.size()` and receives the
exclusive scan of the whole of `data` with initial value `*data.begin()` (undefined on an
empty vector); all cells of `dest` are overwritten, `dest` is swapped into `data` and the
flag is set.  In every case the value returned is `HPX_MOVE(data[which])`, an unchecked
access that leaves the cell moved-from. -/
def finalizer (op : α → α → α) (moved : α → α) (s : slot α) (which : Nat) :
    Except undefined_behaviour (α × slot α) :=
  let scanned : Except undefined_behaviour (slot α) :=
    if s.data_available then .ok s
    else
      match s.data with
      | [] => .error .out_of_bounds_access
      | v0 :: rest => .ok ⟨exclusive_scan op (v0 :: rest) v0, true⟩
  match scanned with
  | .error e => .error e
  | .ok s1 =>
    match s1.data[which]? with
    | none => .error .out_of_bounds_access
    | some r => .ok (r, ⟨s1.data.set which (moved r), s1.data_available⟩)

/-- Successive invocations of the finalizer on one slot, for the sites `ws` in that order,
each invocation working on the slot the previous one left.  Returns the values handed out,
in order, and the slot left behind. -/
def finalize_for (op : α → α → α) (moved : α → α) :
    slot α → List Nat → Except undefined_behaviour (List α × slot α)
  | s, [] => .ok ([], s)
  | s, w :: ws =>
    match finalizer op moved s w with
    | .error e => .error e
    | .ok (r, s1) =>
      match finalize_for op moved s1 ws with
      | .error e => .error e
      | .ok (rs, s2) => .ok (r :: rs, s2)

/-- The per-site results of one round: the finalizer is invoked once for every site
`0, 1, ..., N-1` on the complete buffer `data`, the flag `data_available` being unset at
the first invocation. -/
def site_results (op : α → α → α) (moved : α → α) (data : List α) :
    Except undefined_behaviour (List α) :=
  match finalize_for op moved ⟨data, false⟩ (List.range data.length) with
  | .error e => .error e
  | .ok (rs, _) => .ok rs

/-- The conversion `static_cast<bool>(x)` applied in the `bool` branch to a `bool` or to
the proxy reference of a `std::vector<bool>` cell: the value of the cell. -/
def static_cast_bool (x : Bool) : Bool := x

/-- The finalizer of `communication_operation<Communicator, exclusive_scan_tag>::get`
(exclusive_scan.hpp:294-325), branch for `T = bool` (lines 309-318): the scan is seeded
with `static_cast<bool>(*it)` and combines through the adapter
`[&](auto lhs, auto rhs) { return op(static_cast<bool>(lhs), static_cast<bool>(rhs)); }`.
The value returned is the `bool` read from the cell `data[which]` of the
`std::vector<bool>`, which the read leaves as it is. -/
def finalizer_bool (op : Bool → Bool → Bool) (s : slot Bool) (which : Nat) :
    Except undefined_behaviour (Bool × slot Bool) :=
  let scanned : Except undefined_behaviour (slot Bool) :=
    if s.data_available then .ok s
    else
      match s.data with
      | [] => .error .out_of_bounds_access
      | v0 :: rest =>
        .ok ⟨exclusive_scan (fun lhs rhs => op (static_cast_bool lhs) (static_cast_bool rhs))
          (v0 :: rest) (static_cast_bool v0), true⟩
  match scanned with
  | .error e => .error e
  | .ok s1 =>
    match s1.data[which]? with
    | none => .error .out_of_bounds_access
    | some r => .ok (static_cast_bool r, s1)

/-- Successive invocations of the step function, one for each arrival `(which, t)` in the
order of arrival, each working on the buffer the previous one left. -/
def steps : List α → List (Nat × α) → Except undefined_behaviour (List α)
  | data, [] => .ok data
  | data, (which, t) :: rest =>
    match step data which t with
    | .error e => .error e
    | .ok data1 => steps data1 rest

/-- One invocation the communicator makes on a slot: the step function for an arrival, or
the finalizer for a retrieval. -/
inductive invocation (α : Type u) where
  | step (which : Nat) (t : α)
  | finalize (which : Nat)

/-- The slot an invocation leaves.  The step function receives `data` only
(`[&t](auto& data, std::size_t which)`), so the flag is the one found. -/
def invoke (op : α → α → α) (moved : α → α) (s : slot α) :
    invocation α → Except undefined_behaviour (slot α)
  | .step which t =>
    match step s.data which t with
    | .error e => .error e
    | .ok data1 => .ok ⟨data1, s.data_available⟩
  | .finalize which =>
    match finalizer op moved s which with
    | .error e => .error e
    | .ok (_, s1) => .ok s1

/-- A sequence of invocations on one slot, in order. -/
def invoke_all (op : α → α → α) (moved : α → α) :
    slot α → List (invocation α) → Except undefined_behaviour (slot α)
  | s, [] => .ok s
  | s, c :: cs =>
    match invoke op moved s c with
    | .error e => .error e
    | .ok s1 => invoke_all op moved s1 cs

end traits

namespace collectives

/-- The error codes of `hpx::error` raised by the exclusive-scan overloads. -/
inductive error where
  /-- The code `hpx::error::bad_parameter`. -/
  | bad_parameter
  deriving DecidableEq, Repr

/-- The value `static_cast<std::size_t>(-1)` that marks an argument left unset (a 64-bit
`std::size_t`). -/
def unset : Nat := 2 ^ 64 - 1

/-- One contribution handed to the communicator: the arguments of
`hpx::async(action_type(), c, this_site, generation, local_result, op)`
(exclusive_scan.hpp:363-364), in that order. -/
structure contribution (κ : Type v) (α : Type u) where
  c : κ
  this_site : Nat
  generation : Nat
  local_result : α
  op : α → α → α

/-- The future an asynchronous overload returns: either the ready exceptional future of
`hpx::make_exceptional_future` (exclusive_scan.hpp:347), or the future of
`fid.then(hpx::launch::sync, exclusive_scan_data)` (exclusive_scan.hpp:376), whose
continuation dispatches the contribution `call` to the communicator. -/
inductive future (κ : Type v) (α : Type u) where
  | exceptional (e : error)
  | dispatched (call : contribution κ α)

/-- The parts of the runtime the overloads call that are not among the sources. -/
structure runtime (κ : Type v) (α : Type u) where
  /-- The value of `agas::get_locality_id()`. -/
  locality_id : Nat
  /-- The value of a default-constructed `generation_arg()`. -/
  generation_default : Nat
  /-- The call `create_communicator(basename, num_sites, this_site, generation, root_site)`;
  an error is an exception it throws. -/
  create_communicator : String → Nat → Nat → Nat → Nat → Except error κ
  /-- What the future of a dispatched contribution resolves to. -/
  resolve : contribution κ α → Except error α

/-- The member `future::get()`: returns the value held or rethrows the error held. -/
def future.get (rt : runtime κ α) : future κ α → Except error α
  | .exceptional e => .error e
  | .dispatched call => rt.resolve call

/-- The overload `exclusive_scan(communicator fid, T&& local_result, F&& op,
this_site_arg this_site, generation_arg generation)` (exclusive_scan.hpp:335-377).  The
body has no `throw`: it always returns a future. -/
def exclusive_scan (rt : runtime κ α) (fid : κ) (local_result : α) (op : α → α → α)
    (this_site generation : Nat) : Except error (future κ α) :=
  let this_site := if this_site = unset then rt.locality_id else this_site
  if generation = 0 then .ok (.exceptional .bad_parameter)
  else .ok (.dispatched ⟨fid, this_site, generation, local_result, op⟩)

/-- The overload `exclusive_scan(char const* basename, T&& local_result, F&& op, num_sites,
this_site, generation, root_site)` (exclusive_scan.hpp:388-398): `generation` goes to
`create_communicator` only; the communicator overload is called without it. -/
def exclusive_scan_basename (rt : runtime κ α) (basename : String) (local_result : α)
    (op : α → α → α) (num_sites this_site generation root_site : Nat) :
    Except error (future κ α) :=
  match rt.create_communicator basename num_sites this_site generation root_site with
  | .error e => .error e
  | .ok fid => exclusive_scan rt fid local_result op this_site rt.generation_default

/-- The overload `exclusive_scan(hpx::launch::sync_policy, communicator fid, T&&
local_result, F&& op, this_site, generation)` (exclusive_scan.hpp:401-409). -/
def exclusive_scan_sync (rt : runtime κ α) (fid : κ) (local_result : α) (op : α → α → α)
    (this_site generation : Nat) : Except error α :=
  match exclusive_scan rt fid local_result op this_site generation with
  | .error e => .error e
  | .ok f => f.get rt

/-- The overload `exclusive_scan(hpx::launch::sync_policy, char const* basename, ...)`
(exclusive_scan.hpp:421-433). -/
def exclusive_scan_sync_basename (rt : runtime κ α) (basename : String) (local_result : α)
    (op : α → α → α) (num_sites this_site generation root_site : Nat) : Except error α :=
  match rt.create_communicator basename num_sites this_site generation root_site with
  | .error e => .error e
  | .ok fid =>
    match exclusive_scan rt fid local_result op this_site rt.generation_default with
    | .error e => .error e
    | .ok f => f.get rt

/-- The overload `exclusive_scan(communicator fid, T&& local_result, F&& op,
generation_arg generation, this_site_arg this_site)` (exclusive_scan.hpp:379-386). -/
def exclusive_scan_generation_first (rt : runtime κ α) (fid : κ) (local_result : α)
    (op : α → α → α) (generation this_site : Nat) : Except error (future κ α) :=
  exclusive_scan rt fid local_result op this_site generation

/-- The overload `exclusive_scan(hpx::launch::sync_policy, communicator fid, T&&
local_result, F&& op, generation_arg generation, this_site_arg this_site)`
(exclusive_scan.hpp:411-419). -/
def exclusive_scan_sync_generation_first (rt : runtime κ α) (fid : κ) (local_result : α)
    (op : α → α → α) (generation this_site : Nat) : Except error α :=
  match exclusive_scan rt fid local_result op this_site generation with
  | .error e => .error e
  | .ok f => f.get rt

/-- A communicator handle to instantiate the theorems at: a record of the arguments of the
`create_communicator` call it stands for.  The type `communicator` of
`hpx/collectives/create_communicator.hpp` is not among the sources, and the overloads take
the handle as it comes (the type parameter `κ`). -/
structure communicator where
  basename : String
  num_sites : Nat
  this_site : Nat
  generation : Nat
  root_site : Nat
  deriving DecidableEq, Repr

/-- A runtime to instantiate the theorems on the communicator overload at, for integer
contributions on locality 0.  That overload reads `locality_id` only; the other three
fields stand for code that is not among the sources and are sample values, on which no
statement rests. -/
def reference_runtime : runtime communicator Int where
  locality_id := 0
  generation_default := unset
  create_communicator := fun basename num_sites this_site generation root_site =>
    .ok ⟨basename, num_sites, this_site, generation, root_site⟩
  resolve := fun call => .ok call.local_result

end collectives

/-! ## The algorithm `generate_n` of `hpx/parallel/algorithms/generate.hpp`

The sequence the iterators range over is a `List α`, an iterator is an index into it, and
the generator `f` is a function object with a state of type `σ`: one invocation `f()` is
`f g = (value, next state)`. -/

/-- What a run of `generate_n` leaves: the sequence, the state of the generator and the
iterator returned. -/
structure generated (α : Type u) (σ : Type v) where
  range : List α
  generator : σ
  result : Nat

namespace parallel.detail

/-- Modelled from the spec: `hpx::parallel::detail::is_negative` of
`hpx/execution/algorithms/detail/is_negative.hpp`, which is not among the sources; spec.md
does not describe it, the model follows its name and its use as the guard of
generate.hpp:374 and 398: whether the integral `count` is below zero. -/
def is_negative (count : Int) : Bool := decide (count < 0)

/-- Modelled from the spec: `sequential_generate_n(policy, first, count, f)` of
`hpx/parallel/algorithms/detail/generate.hpp`, which is not among the sources; spec.md does
not describe it, the model is the loop the documentation of `generate_n` states
(generate.hpp:159-163, 189-191): "Assigns each element in range [first, first+count) a
value generated by the given function object f", "Exactly count invocations of f and
assignments", returning the "iterator one past the last element assigned".  An assignment
through an iterator outside the sequence is undefined behaviour. -/
def sequential_generate_n {σ : Type v} (f : σ → α × σ) :
    List α → Nat → Nat → σ → Except undefined_behaviour (generated α σ)
  | xs, first, 0, g => .ok ⟨xs, g, first⟩
  | xs, first, count + 1, g =>
    if first < xs.length then
      sequential_generate_n f (xs.set first (f g).1) (first + 1) count (f g).2
    else .error .out_of_bounds_access

/-- The member `generate_n<FwdIter>::sequential(policy, first, count, f)`
(generate.hpp:279-285). -/
def generate_n.sequential {σ : Type v} (f : σ → α × σ) (xs : List α) (first count : Nat)
    (g : σ) : Except undefined_behaviour (generated α σ) :=
  sequential_generate_n f xs first count g

end parallel.detail

/-- The conversion `static_cast<std::size_t>(count)` of an integral `count` (a 64-bit
`std::size_t`). -/
def static_cast_size_t (count : Int) : Nat := (count % 2 ^ 64).toNat

/-- The overload of `hpx::generate_n` without execution policy,
`tag_fallback_invoke(generate_n_t, FwdIter first, Size count, F&& f)`
(generate.hpp:392-406).  A negative `count` returns `first` at once; otherwise
`generate_n<FwdIter>().call(hpx::execution::seq, first, static_cast<std::size_t>(count), f)`
runs the member `sequential`. -/
def generate_n {σ : Type v} (f : σ → α × σ) (xs : List α) (first : Nat) (count : Int)
    (g : σ) : Except undefined_behaviour (generated α σ) :=
  if parallel.detail.is_negative count then .ok ⟨xs, g, first⟩
  else parallel.detail.generate_n.sequential f xs first (static_cast_size_t count) g

/-! ## The algorithm `generate` of `hpx/parallel/algorithms/generate.hpp` -/

namespace parallel.detail

/-- Modelled from the spec: `sequential_generate(policy, first, last, f)` of
`hpx/parallel/algorithms/detail/generate.hpp`, which is not among the sources; spec.md does
not describe it, the model is the loop the documentation of `generate` states
(generate.hpp:69-73): "Assign each element in range [first, last) a value generated by the
given function object f", "Exactly distance(first, last) invocations of f and assignments".
The loop runs while `first != last`, one invocation of `f` and one assignment for every
iteration; an assignment through an iterator outside the sequence is undefined behaviour,
which is where a `first` beyond `last` ends. -/
def sequential_generate {σ : Type v} (f : σ → α × σ) (xs : List α) (first last : Nat)
    (g : σ) : Except undefined_behaviour (generated α σ) :=
  if first = last then .ok ⟨xs, g, first⟩
  else if _h : first < last then
    if first < xs.length then
      sequential_generate f (xs.set first (f g).1) (first + 1) last (f g).2
    else .error .out_of_bounds_access
  else .error .out_of_bounds_access
termination_by last - first

/-- The member `generate<FwdIter>::sequential(policy, first, last, f)`
(generate.hpp:235-242). -/
def generate.sequential {σ : Type v} (f : σ → α × σ) (xs : List α) (first last : Nat)
    (g : σ) : Except undefined_behaviour (generated α σ) :=
  sequential_generate f xs first last g

end parallel.detail

/-- The overload of `hpx::generate` without execution policy,
`tag_fallback_invoke(generate_t, FwdIter first, FwdIter last, F f)` (generate.hpp:341-349):
`generate<FwdIter>().call(hpx::execution::seq, first, last, f)` runs the member
`sequential`. -/
def generate {σ : Type v} (f : σ → α × σ) (xs : List α) (first last : Nat) (g : σ) :
    Except undefined_behaviour (generated α σ) :=
  parallel.detail.generate.sequential f xs first last g

/-- The state of the generator after `n` invocations of `f`, starting from `g`. -/
def generator_after {σ : Type v} (f : σ → α × σ) (n : Nat) (g : σ) : σ :=
  Nat.iterate (fun s => (f s).2) n g

/-- The value the invocation number `i` of `f` (counted from 0) produces, starting from
the state `g`. -/
def generated_value {σ : Type v} (f : σ → α × σ) (i : Nat) (g : σ) : α :=
  (f (generator_after f i g)).1

namespace traits

/-- The function `communication_operation<Communicator, exclusive_scan_tag>::get`
(exclusive_scan.hpp:280-326): it hands `which` and `generation`, the step function that
stores `t` and the finalizer that combines with `op` to `communicator.handle_data`.  The
member `handle_data` of the communicator is not among the sources and is the parameter
`handle_data`. -/
def get {ρ : Type v} (moved : α → α)
    (handle_data : Nat → Nat → (List α → Nat → Except undefined_behaviour (List α)) →
      (slot α → Nat → Except undefined_behaviour (α × slot α)) → ρ)
    (which generation : Nat) (t : α) (op : α → α → α) : ρ :=
  handle_data which generation (fun data which => step data which t)
    (fun s which => finalizer op moved s which)

/-- The state of one round at the communicator, as far as arrivals go: the data model
`OperationSlot` of the spec (§3) with its contribution buffer, the cells that are set, the
count `arrived` and the flag `finalized`. -/
structure operation_slot (α : Type u) where
  contributions : List α
  cell_set : List Bool
  arrived : Nat
  finalized : Bool
  deriving DecidableEq, Repr

/-- The ways an arrival at the communicator ends without being accepted. -/
inductive arrival_failure where
  /-- The error `OutOfRange` of the spec (§7): "site index outside [0, num_sites)". -/
  | out_of_range
  /-- Undefined behaviour reached by the step function. -/
  | undefined (e : undefined_behaviour)
  deriving DecidableEq, Repr

/-- Modelled from the spec: the arrival of a contribution in the member `handle_data` of the
communicator (`hpx/collectives/detail/communicator.hpp`), which is not among the sources.
The spec, §4.2, contract of `arrive(generation, site, value, op)`: "Precondition:
`0 ≤ site < num_sites`; violated ⇒ fails with `OutOfRange`"; "Effect: [...] if
`contributions[site]` is unset: run `step(contributions, site, value)`, mark the cell set,
increment `arrived`", a late or duplicate arrival being "accepted but ignored"; §7:
"`OutOfRange` — site index outside [0, num_sites); fails fast synchronously".  The result is
the slot the arrival leaves and its outcome.  The finalization that follows the last
arrival, and with it the use of `finalizer` and of `generation`, is not part of this
definition. -/
def handle_data (num_sites : Nat) (s : operation_slot α) (which _generation : Nat)
    (step : List α → Nat → Except undefined_behaviour (List α))
    (_finalizer : slot α → Nat → Except undefined_behaviour (α × slot α)) :
    operation_slot α × Except arrival_failure Unit :=
  if which < num_sites then
    if s.finalized || s.cell_set.getD which false then (s, .ok ())
    else
      match step s.contributions which with
      | .error e => (s, .error (.undefined e))
      | .ok contributions1 =>
        (⟨contributions1, s.cell_set.set which true, s.arrived + 1, s.finalized⟩, .ok ())
  else (s, .error .out_of_range)

end traits

/-! ## The class `child` of `hpx/components/process/util/windows/child.hpp`

A `HANDLE` is a number, `PROCESS_INFORMATION` is the structure of `<windows.h>` with its
four fields, and an object of class `child` lives at an address of a memory. -/

namespace components.process.windows

/-- The type `HANDLE` of `<windows.h>`. -/
abbrev HANDLE := Nat

/-- The constant `INVALID_HANDLE_VALUE` of `<windows.h>`, `(HANDLE)(LONG_PTR)-1` (64-bit
pointers). -/
def INVALID_HANDLE_VALUE : HANDLE := 2 ^ 64 - 1

/-- The structure `PROCESS_INFORMATION` of `<windows.h>`. -/
structure PROCESS_INFORMATION where
  hProcess : HANDLE
  hThread : HANDLE
  dwProcessId : Nat
  dwThreadId : Nat
  deriving DecidableEq, Repr

/-- The class `child` (child.hpp:24-76): its one data member. -/
structure child where
  proc_info : PROCESS_INFORMATION
  deriving DecidableEq, Repr

/-- The destructor `~child()` (child.hpp:41-47): the handles passed to `::CloseHandle`, in
the order of the calls. -/
def child.destroy (c : child) : List HANDLE :=
  (if c.proc_info.hProcess ≠ INVALID_HANDLE_VALUE then [c.proc_info.hProcess] else []) ++
  (if c.proc_info.hThread ≠ INVALID_HANDLE_VALUE then [c.proc_info.hThread] else [])

/-- The move constructor `child(child&& c)` (child.hpp:49-54): the object constructed and
the object `c` as the constructor leaves it. -/
def child.move_construct (c : child) : child × child :=
  (⟨c.proc_info⟩,
    ⟨{ c.proc_info with hProcess := INVALID_HANDLE_VALUE, hThread := INVALID_HANDLE_VALUE }⟩)

/-- The member `process_handle()` (child.hpp:72-75). -/
def child.process_handle (c : child) : HANDLE := c.proc_info.hProcess

/-- The objects of class `child` in memory, by address. -/
abbrev memory := Nat → child

/-- The move assignment `child& operator=(child&& c)` (child.hpp:56-70) of the object at
address `this` from the object at address `c`: the memory it leaves and the handles passed
to `::CloseHandle`.  The body is guarded by `if (this == &c)`; it closes the handles of
`*this` with the two statements of the destructor (lines 60-63), copies `c.proc_info` and
sets the two handles of `c` to `INVALID_HANDLE_VALUE`. -/
def child.move_assign (m : memory) (this c : Nat) : memory × List HANDLE :=
  if this = c then
    let closed := (m this).destroy
    let m1 : memory := Function.update m this ⟨(m c).proc_info⟩
    let m2 : memory := Function.update m1 c
      ⟨{ (m1 c).proc_info with
        hProcess := INVALID_HANDLE_VALUE, hThread := INVALID_HANDLE_VALUE }⟩
    (m2, closed)
  else (m, [])

end components.process.windows

namespace traits

/-! ## Lemmas on the scan and on the finalizer -/

theorem exclusive_scan_length (op : α → α → α) (xs : List α) :
    ∀ init : α, (hpx.exclusive_scan op xs init).length = xs.length := by
  induction xs with
  | nil => intro init; rfl
  | cons x xs ih => intro init; simp [hpx.exclusive_scan, ih]

theorem exclusive_scan_getElem? (op : α → α → α) (xs : List α) :
    ∀ (init : α) (k : Nat), k < xs.length →
      (hpx.exclusive_scan op xs init)[k]? = some ((xs.take k).foldl op init) := by
  induction xs with
  | nil => intro init k hk; simp at hk
  | cons x xs ih =>
    intro init k hk
    cases k with
    | zero => simp [hpx.exclusive_scan]
    | succ k =>
      have hk1 : k < xs.length := by simpa using hk
      simp [hpx.exclusive_scan, ih (op init x) k hk1]

theorem finalizer_first (op : α → α → α) (moved : α → α) (v0 : α) (rest : List α)
    (which : Nat) :
    finalizer op moved ⟨v0 :: rest, false⟩ which =
      finalizer op moved ⟨hpx.exclusive_scan op (v0 :: rest) v0, true⟩ which := by
  simp [finalizer]

theorem finalizer_available (op : α → α → α) (moved : α → α) (b : List α) (which : Nat)
    (r : α) (h : b[which]? = some r) :
    finalizer op moved ⟨b, true⟩ which = .ok (r, ⟨b.set which (moved r), true⟩) := by
  simp [finalizer, h]

theorem finalizer_fresh (op : α → α → α) (moved : α → α) (v0 : α) (rest : List α)
    (k : Nat) (hk : k < (v0 :: rest).length) :
    finalizer op moved ⟨v0 :: rest, false⟩ k =
      .ok (((v0 :: rest).take k).foldl op v0,
        ⟨(hpx.exclusive_scan op (v0 :: rest) v0).set k
          (moved (((v0 :: rest).take k).foldl op v0)), true⟩) := by
  rw [finalizer_first]
  exact finalizer_available op moved _ k _ (exclusive_scan_getElem? op (v0 :: rest) v0 k hk)

theorem set_getElem_same (b : List α) (w : Nat) (h : w < b.length) : b.set w b[w] = b := by
  apply List.ext_getElem?
  intro i
  by_cases hi : w = i
  · subst hi
    rw [List.getElem?_set_self h, List.getElem?_eq_getElem h]
  · exact List.getElem?_set_ne hi

theorem finalize_for_first (op : α → α → α) (moved : α → α) (v0 : α) (rest : List α)
    (w : Nat) (ws : List Nat) :
    finalize_for op moved ⟨v0 :: rest, false⟩ (w :: ws) =
      finalize_for op moved ⟨hpx.exclusive_scan op (v0 :: rest) v0, true⟩ (w :: ws) := by
  simp [finalize_for, finalizer_first]

/-- Retrievals from a finalized slot: every invocation succeeds and never rescans.  For
pairwise distinct sites, or when a move is a copy, each site receives its own cell of the
buffer found on entry. -/
theorem finalize_for_available (op : α → α → α) (moved : α → α) (ws : List Nat) :
    ∀ b : List α, (∀ w ∈ ws, w < b.length) → ((∀ x, moved x = x) ∨ ws.Nodup) →
      ∃ rs b1, finalize_for op moved ⟨b, true⟩ ws = .ok (rs, ⟨b1, true⟩) ∧
        rs.map some = ws.map (fun w => b[w]?) ∧ b1.length = b.length ∧
        (∀ j, j ∉ ws → b1[j]? = b[j]?) ∧ ((∀ x, moved x = x) → b1 = b) := by
  induction ws with
  | nil => intro b _ _; exact ⟨[], b, rfl, rfl, rfl, fun _ _ => rfl, fun _ => rfl⟩
  | cons w ws ih =>
    intro b hw hm
    have hwb : w < b.length := hw w (List.mem_cons_self w ws)
    have hget : b[w]? = some b[w] := List.getElem?_eq_getElem hwb
    have hstep := finalizer_available op moved b w b[w] hget
    have hm1 : (∀ x, moved x = x) ∨ ws.Nodup := by
      rcases hm with h | h
      · exact Or.inl h
      · exact Or.inr (List.nodup_cons.mp h).2
    have hsame : ∀ j ∈ ws, (b.set w (moved b[w]))[j]? = b[j]? := by
      intro j hj
      rcases hm with h | h
      · rw [h, set_getElem_same b w hwb]
      · have hne : w ≠ j := by
          intro he
          subst he
          exact (List.nodup_cons.mp h).1 hj
        exact List.getElem?_set_ne hne
    obtain ⟨rs, b1, hrun, hrs, hlen, hout, hid⟩ :=
      ih (b.set w (moved b[w]))
        (by intro j hj; simpa using hw j (List.mem_cons_of_mem w hj)) hm1
    refine ⟨b[w] :: rs, b1, ?_, ?_, ?_, ?_, ?_⟩
    · simp [finalize_for, hstep, hrun]
    · simp only [List.map_cons, hget, hrs]
      congr 1
      exact List.map_congr_left hsame
    · simpa using hlen
    · intro j hj
      have hjw : w ≠ j := fun he => hj (he ▸ List.mem_cons_self w ws)
      have hjws : j ∉ ws := fun h => hj (List.mem_cons_of_mem w h)
      rw [hout j hjws]
      exact List.getElem?_set_ne hjw
    · intro h
      rw [hid h, h, set_getElem_same b w hwb]

theorem map_some_range_getElem? (b rs : List α)
    (h : rs.map some = (List.range b.length).map (fun w => b[w]?)) : rs = b := by
  apply List.ext_getElem?
  intro i
  have hi := congrArg (fun l => l[i]?) h
  simp only [List.getElem?_map, List.getElem?_range] at hi
  by_cases hlt : i < b.length
  · simp only [List.getElem?_range hlt, Option.map_some'] at hi
    cases hr : rs[i]? with
    | none => simp [hr] at hi
    | some r => simpa [hr] using hi
  · have hb : b[i]? = none := List.getElem?_eq_none (Nat.le_of_not_lt hlt)
    have hrange : (List.range b.length)[i]? = none :=
      List.getElem?_eq_none (by simpa using Nat.le_of_not_lt hlt)
    rw [hrange] at hi
    cases hr : rs[i]? with
    | none => rw [hb]
    | some r => simp [hr] at hi

/-- The per-site results of a round are the scan of the whole buffer seeded with its first
element. -/
theorem site_results_eq_scan (op : α → α → α) (moved : α → α) (v0 : α) (rest : List α) :
    site_results op moved (v0 :: rest) = .ok (hpx.exclusive_scan op (v0 :: rest) v0) := by
  have hlen := exclusive_scan_length op (v0 :: rest) v0
  obtain ⟨rs, b1, hrun, hrs, -, -, -⟩ :=
    finalize_for_available op moved (List.range (v0 :: rest).length)
      (hpx.exclusive_scan op (v0 :: rest) v0)
      (by intro w hw; rw [hlen]; exact List.mem_range.mp hw)
      (Or.inr (List.nodup_range _))
  have hrs1 : rs = hpx.exclusive_scan op (v0 :: rest) v0 := by
    apply map_some_range_getElem?
    rw [hlen]
    exact hrs
  have hrange : List.range (v0 :: rest).length =
      0 :: (List.range rest.length).map Nat.succ := by
    simp [List.range_succ_eq_map]
  unfold site_results
  rw [hrange, finalize_for_first, ← hrange, hrun, hrs1]

theorem take_eq_of_agree (k : Nat) (d d1 : List α)
    (h : ∀ j, j < k → d[j]? = d1[j]?) : d.take k = d1.take k := by
  apply List.ext_getElem?
  intro i
  by_cases hi : i < k
  · rw [List.getElem?_take_of_lt hi, List.getElem?_take_of_lt hi]
    exact h i hi
  · rw [List.getElem?_take_eq_none (Nat.le_of_not_lt hi),
      List.getElem?_take_eq_none (Nat.le_of_not_lt hi)]

/-! ## The claims on the finalizer -/

/-- C1: evaluation of the finalizer at the contributions `[1, 2, 3, 4]` under integer
addition: the per-site results are `[1, 2, 4, 7]`, the first contribution being counted
twice from site 1 on, and not the `[1, 1, 3, 6]` in which it is counted once. -/
theorem site_results_one_to_four :
    site_results (fun a b : Int => a + b) id [1, 2, 3, 4] = .ok [1, 2, 4, 7] ∧
    site_results (fun a b : Int => a + b) id [1, 2, 3, 4] ≠ .ok [1, 1, 3, 6] := by
  constructor
  · rfl
  · intro h
    have h1 : site_results (fun a b : Int => a + b) id [1, 2, 3, 4] = .ok [1, 2, 4, 7] := rfl
    rw [h1] at h
    simp at h

/-- C2: seeding rule of the finalizer.  On every complete buffer `v0 :: rest` and for every
`op`, the per-site results are the sequential exclusive scan of the whole buffer with
initial value `v0`: site 0 receives `v0` and site `k + 1` receives
`op (... (op (op v0 v0) v1) ...) vk`, so `v0` is both the seed and the first addend. -/
theorem finalizer_seeding_rule (op : α → α → α) (moved : α → α) (v0 : α) (rest : List α) :
    ∃ rs, site_results op moved (v0 :: rest) = .ok rs ∧
      rs = hpx.exclusive_scan op (v0 :: rest) v0 ∧
      rs.length = rest.length + 1 ∧
      rs[0]? = some v0 ∧
      (finalizer op moved ⟨v0 :: rest, false⟩ 0).map Prod.fst = .ok v0 ∧
      ∀ k, k < rest.length →
        rs[k + 1]? = some ((rest.take k).foldl op (op v0 v0)) ∧
        (finalizer op moved ⟨v0 :: rest, false⟩ (k + 1)).map Prod.fst =
          .ok ((rest.take k).foldl op (op v0 v0)) := by
  refine ⟨_, site_results_eq_scan op moved v0 rest, rfl, ?_, ?_, ?_, ?_⟩
  · simpa using exclusive_scan_length op (v0 :: rest) v0
  · simp [hpx.exclusive_scan]
  · rw [finalizer_fresh op moved v0 rest 0 (by simp)]
    rfl
  · intro k hk
    have hk1 : k + 1 < (v0 :: rest).length := by simpa using hk
    constructor
    · simpa using exclusive_scan_getElem? op (v0 :: rest) v0 (k + 1) hk1
    · rw [finalizer_fresh op moved v0 rest (k + 1) hk1]
      rfl

/-- Witness of C2 at the contributions `[1, 2, 3, 4]` under integer addition: the sites
receive `[1, 2, 4, 7]`. -/
theorem finalizer_seeding_rule_witness :
    ∃ rs, site_results (fun a b : Int => a + b) id [1, 2, 3, 4] = .ok rs ∧
      rs = [1, 2, 4, 7] ∧ rs[2 + 1]? = some 7 := by
  obtain ⟨rs, hrs, hscan, -, -, -, hk⟩ :=
    finalizer_seeding_rule (fun a b : Int => a + b) id 1 [2, 3, 4]
  exact ⟨rs, hrs, hscan, (hk 2 (by decide)).1⟩

/-- C3: evaluation of the finalizer at the contributions `[3, 5]` under integer addition:
site 0 receives the root value `3`, site 1 receives `6`, which is `3 + 3` and not the root
value the documented note promises. -/
theorem root_note_at_three_five :
    finalizer (fun a b : Int => a + b) id ⟨[3, 5], false⟩ 0 = .ok (3, ⟨[3, 6], true⟩) ∧
    finalizer (fun a b : Int => a + b) id ⟨[3, 5], false⟩ 1 = .ok (6, ⟨[3, 6], true⟩) ∧
    site_results (fun a b : Int => a + b) id [3, 5] = .ok [3, 6] :=
  ⟨rfl, rfl, rfl⟩

/-- C4, counterexample: the buffers `[1]` and `[2]` have the same length and differ only at
index 0, yet site 0 receives `1` from the first and `2` from the second. -/
theorem site_zero_receives_own_contribution :
    ([1] : List Int).length = ([2] : List Int).length ∧
    (∀ j, j ≠ 0 → ([1] : List Int)[j]? = ([2] : List Int)[j]?) ∧
    (finalizer (fun a b : Int => a + b) id ⟨[1], false⟩ 0).map Prod.fst = .ok 1 ∧
    (finalizer (fun a b : Int => a + b) id ⟨[2], false⟩ 0).map Prod.fst = .ok 2 ∧
    (finalizer (fun a b : Int => a + b) id ⟨[1], false⟩ 0).map Prod.fst ≠
      (finalizer (fun a b : Int => a + b) id ⟨[2], false⟩ 0).map Prod.fst := by
  refine ⟨rfl, ?_, rfl, rfl, ?_⟩
  · intro j hj
    cases j with
    | zero => exact absurd rfl hj
    | succ j => rfl
  · intro h
    have h1 : (finalizer (fun a b : Int => a + b) id ⟨[1], false⟩ 0).map Prod.fst = .ok 1 :=
      rfl
    have h2 : (finalizer (fun a b : Int => a + b) id ⟨[2], false⟩ 0).map Prod.fst = .ok 2 :=
      rfl
    rw [h1, h2] at h
    simp at h

/-- C4, amended: for every site `k` with `1 ≤ k < N`, two complete buffers of equal length
that differ only at index `k` give site `k` the same result; site 0 receives its own
contribution, the first element of the buffer. -/
theorem finalizer_excludes_own_contribution (op : α → α → α) (moved : α → α)
    (d d1 : List α) (k : Nat) (hlen : d.length = d1.length) (hk1 : 1 ≤ k)
    (hk : k < d.length) (hdiff : ∀ j, j ≠ k → d[j]? = d1[j]?) :
    (∃ r, (finalizer op moved ⟨d, false⟩ k).map Prod.fst = .ok r ∧
      (finalizer op moved ⟨d1, false⟩ k).map Prod.fst = .ok r) ∧
    (∀ v0, d.head? = some v0 → (finalizer op moved ⟨d, false⟩ 0).map Prod.fst = .ok v0) := by
  cases d with
  | nil => simp at hk
  | cons v0 rest =>
    cases d1 with
    | nil => simp at hlen
    | cons w0 rest1 =>
      have h0 : v0 = w0 := by
        have := hdiff 0 (by omega)
        simpa using this
      subst h0
      have htake : (v0 :: rest).take k = (v0 :: rest1).take k :=
        take_eq_of_agree k _ _ (fun j hj => hdiff j (by omega))
      constructor
      · refine ⟨((v0 :: rest).take k).foldl op v0, ?_, ?_⟩
        · rw [finalizer_fresh op moved v0 rest k hk]
          rfl
        · rw [finalizer_fresh op moved v0 rest1 k (by rw [← hlen]; exact hk), htake]
          rfl
      · intro v hv
        have hv0 : v0 = v := by simpa using hv
        subst hv0
        rw [finalizer_fresh op moved v0 rest 0 (by simp)]
        rfl

/-- Witness of the amended C4: the buffers `[1, 2, 3]` and `[1, 9, 3]` differ only at
index 1 and give site 1 the same result. -/
theorem finalizer_excludes_own_contribution_witness :
    (∃ r, (finalizer (fun a b : Int => a + b) id ⟨[1, 2, 3], false⟩ 1).map Prod.fst = .ok r ∧
      (finalizer (fun a b : Int => a + b) id ⟨[1, 9, 3], false⟩ 1).map Prod.fst = .ok r) ∧
    (∀ v0, ([1, 2, 3] : List Int).head? = some v0 →
      (finalizer (fun a b : Int => a + b) id ⟨[1, 2, 3], false⟩ 0).map Prod.fst = .ok v0) :=
  finalizer_excludes_own_contribution (fun a b : Int => a + b) id [1, 2, 3] [1, 9, 3] 1 rfl
    (by decide) (by decide)
    (by
      intro j hj
      match j, hj with
      | 0, _ => rfl
      | 1, h => exact absurd rfl h
      | 2, _ => rfl
      | j + 3, _ => rfl)

/-- C5: left-to-right application order.  For every `op`, every complete buffer and every
`k` with `k + 1 < N`, the results of one round satisfy
`result[k + 1] = op result[k] v(k)`. -/
theorem finalizer_left_to_right (op : α → α → α) (moved : α → α) (d : List α) (k : Nat)
    (hk : k + 1 < d.length) :
    ∃ rs rk vk, site_results op moved d = .ok rs ∧ rs[k]? = some rk ∧ d[k]? = some vk ∧
      rs[k + 1]? = some (op rk vk) := by
  cases d with
  | nil => simp at hk
  | cons v0 rest =>
    have hk0 : k < (v0 :: rest).length := by omega
    refine ⟨_, ((v0 :: rest).take k).foldl op v0, (v0 :: rest)[k],
      site_results_eq_scan op moved v0 rest,
      exclusive_scan_getElem? op (v0 :: rest) v0 k hk0,
      List.getElem?_eq_getElem hk0, ?_⟩
    rw [exclusive_scan_getElem? op (v0 :: rest) v0 (k + 1) hk, List.take_succ,
      List.getElem?_eq_getElem hk0]
    simp only [Option.toList_some, List.foldl_append, List.foldl_cons, List.foldl_nil]

/-- Witness of C5 at the contributions `[1, 2, 3, 4]` under integer subtraction, which is
not commutative, with `k = 1`. -/
theorem finalizer_left_to_right_witness :
    ∃ rs rk vk, site_results (fun a b : Int => a - b) id [1, 2, 3, 4] = .ok rs ∧
      rs[1]? = some rk ∧ ([1, 2, 3, 4] : List Int)[1]? = some vk ∧
      rs[1 + 1]? = some (rk - vk) :=
  finalizer_left_to_right (fun a b : Int => a - b) id [1, 2, 3, 4] 1 (by decide)

/-- C10, counterexample: with `std::vector` elements (a moved-from vector is empty) and
concatenation as `op`, the scan of `[[1], [2]]` is `[[1], [1, 1]]`; two invocations for
site 1 return `[1, 1]` and then `[]`, and the buffer left behind is `[[1], []]`. -/
theorem second_retrieval_finds_moved_cell :
    hpx.exclusive_scan (fun a b : List Nat => a ++ b) [[1], [2]] [1] = [[1], [1, 1]] ∧
    finalize_for (fun a b : List Nat => a ++ b) (fun _ => []) ⟨[[1], [2]], false⟩ [1] =
      .ok ([[1, 1]], ⟨[[1], []], true⟩) ∧
    finalize_for (fun a b : List Nat => a ++ b) (fun _ => []) ⟨[[1], [2]], false⟩ [1, 1] =
      .ok ([[1, 1], []], ⟨[[1], []], true⟩) :=
  ⟨rfl, rfl, rfl⟩

/-- Retrievals from a finalized slot, for any sites below the length of the buffer and any
moved-from state: every invocation succeeds, the flag stays set, the buffer keeps its
length and every cell that is not retrieved stays as it was. -/
theorem finalize_for_frame (op : α → α → α) (moved : α → α) (ws : List Nat) :
    ∀ b : List α, (∀ w ∈ ws, w < b.length) →
      ∃ rs b1, finalize_for op moved ⟨b, true⟩ ws = .ok (rs, ⟨b1, true⟩) ∧
        rs.length = ws.length ∧ b1.length = b.length ∧
        (∀ j, j ∉ ws → b1[j]? = b[j]?) := by
  induction ws with
  | nil => intro b _; exact ⟨[], b, rfl, rfl, rfl, fun _ _ => rfl⟩
  | cons w ws ih =>
    intro b hw
    have hwb : w < b.length := hw w (List.mem_cons_self w ws)
    have hstep := finalizer_available op moved b w b[w] (List.getElem?_eq_getElem hwb)
    obtain ⟨rs, b1, hrun, hrs, hlen, hout⟩ :=
      ih (b.set w (moved b[w]))
        (by intro j hj; simpa using hw j (List.mem_cons_of_mem w hj))
    refine ⟨b[w] :: rs, b1, ?_, by simp [hrs], by simpa using hlen, ?_⟩
    · simp [finalize_for, hstep, hrun]
    · intro j hj
      have hjw : w ≠ j := fun he => hj (he ▸ List.mem_cons_self w ws)
      have hjws : j ∉ ws := fun h => hj (List.mem_cons_of_mem w h)
      rw [hout j hjws]
      exact List.getElem?_set_ne hjw

/-- C10, amended: starting from a complete buffer `d = v0 :: rest` with `data_available`
unset, every non-empty sequence of finalizer invocations for sites below `N` succeeds with
one value for each invocation and leaves `data_available` set; only the first invocation
scans, the sequence being the retrievals from the slot that holds `scan(d)`; the buffer
keeps its length and equals `scan(d)` at every cell that is not retrieved.  When the sites
are pairwise distinct, or when a move is a copy, the i-th invocation returns `scan(d)[wi]`;
when a move is a copy the buffer equals `scan(d)` everywhere. -/
theorem finalize_runs_once (op : α → α → α) (moved : α → α) (v0 : α) (rest : List α)
    (ws : List Nat) (hne : ws ≠ []) (hw : ∀ w ∈ ws, w < (v0 :: rest).length) :
    finalize_for op moved ⟨v0 :: rest, false⟩ ws =
      finalize_for op moved ⟨hpx.exclusive_scan op (v0 :: rest) v0, true⟩ ws ∧
    ∃ rs b1, finalize_for op moved ⟨v0 :: rest, false⟩ ws = .ok (rs, ⟨b1, true⟩) ∧
      rs.length = ws.length ∧
      b1.length = (v0 :: rest).length ∧
      (∀ j, j ∉ ws → b1[j]? = (hpx.exclusive_scan op (v0 :: rest) v0)[j]?) ∧
      (((∀ x, moved x = x) ∨ ws.Nodup) →
        rs.map some = ws.map (fun w => (hpx.exclusive_scan op (v0 :: rest) v0)[w]?)) ∧
      ((∀ x, moved x = x) → b1 = hpx.exclusive_scan op (v0 :: rest) v0) := by
  have hlen := exclusive_scan_length op (v0 :: rest) v0
  have hfirst : finalize_for op moved ⟨v0 :: rest, false⟩ ws =
      finalize_for op moved ⟨hpx.exclusive_scan op (v0 :: rest) v0, true⟩ ws := by
    cases ws with
    | nil => exact absurd rfl hne
    | cons w ws => exact finalize_for_first op moved v0 rest w ws
  have hw1 : ∀ w ∈ ws, w < (hpx.exclusive_scan op (v0 :: rest) v0).length := by
    intro w hmem
    rw [hlen]
    exact hw w hmem
  obtain ⟨rs, b1, hrun, hrs, hl, hout⟩ :=
    finalize_for_frame op moved ws (hpx.exclusive_scan op (v0 :: rest) v0) hw1
  have hvalues : ((∀ x, moved x = x) ∨ ws.Nodup) →
      rs.map some = ws.map (fun w => (hpx.exclusive_scan op (v0 :: rest) v0)[w]?) ∧
      ((∀ x, moved x = x) → b1 = hpx.exclusive_scan op (v0 :: rest) v0) := by
    intro hm
    obtain ⟨rs2, b2, hrun2, hrs2, -, -, hid2⟩ :=
      finalize_for_available op moved ws (hpx.exclusive_scan op (v0 :: rest) v0) hw1 hm
    rw [hrun] at hrun2
    have hpair := Except.ok.inj hrun2
    have hrs_eq : rs = rs2 := (Prod.mk.inj hpair).1
    have hb_eq : b1 = b2 := by
      have := (Prod.mk.inj hpair).2
      exact congrArg slot.data this
    rw [hrs_eq, hb_eq]
    exact ⟨hrs2, hid2⟩
  exact ⟨hfirst, rs, b1, hfirst.trans hrun, hrs, hl.trans hlen, hout,
    fun hm => (hvalues hm).1, fun hid => (hvalues (Or.inl hid)).2 hid⟩

/-- Witness of the amended C10: integer contributions `[1, 2, 3, 4]` under addition, the
sites served in the order 2, 0, 2, 3 (a move of an integer is a copy). -/
theorem finalize_runs_once_witness :
    finalize_for (fun a b : Int => a + b) id ⟨[1, 2, 3, 4], false⟩ [2, 0, 2, 3] =
      finalize_for (fun a b : Int => a + b) id
        ⟨hpx.exclusive_scan (fun a b : Int => a + b) [1, 2, 3, 4] 1, true⟩ [2, 0, 2, 3] ∧
    ∃ rs b1, finalize_for (fun a b : Int => a + b) id ⟨[1, 2, 3, 4], false⟩ [2, 0, 2, 3] =
        .ok (rs, ⟨b1, true⟩) ∧
      rs.length = [2, 0, 2, 3].length ∧
      b1.length = ([1, 2, 3, 4] : List Int).length ∧
      (∀ j, j ∉ [2, 0, 2, 3] →
        b1[j]? = (hpx.exclusive_scan (fun a b : Int => a + b) [1, 2, 3, 4] 1)[j]?) ∧
      (((∀ x : Int, id x = x) ∨ [2, 0, 2, 3].Nodup) →
        rs.map some = [2, 0, 2, 3].map
          (fun w => (hpx.exclusive_scan (fun a b : Int => a + b) [1, 2, 3, 4] 1)[w]?)) ∧
      ((∀ x : Int, id x = x) →
        b1 = hpx.exclusive_scan (fun a b : Int => a + b) [1, 2, 3, 4] 1) :=
  finalize_runs_once (fun a b : Int => a + b) id 1 [2, 3, 4] [2, 0, 2, 3] (by simp)
    (by decide)

end traits

namespace collectives

/-! ## The claims on the public overloads -/

/-- C6: for every value, `op` and `this_site`, the communicator overload called with
generation 0 yields the `bad_parameter` error and dispatches no contribution to the
communicator. -/
theorem zero_generation_is_rejected (rt : runtime κ α) (fid : κ) (local_result : α)
    (op : α → α → α) (this_site : Nat) :
    exclusive_scan rt fid local_result op this_site 0 = .ok (.exceptional .bad_parameter) ∧
    ∀ call, exclusive_scan rt fid local_result op this_site 0 ≠ .ok (.dispatched call) := by
  constructor
  · simp [exclusive_scan]
  · intro call h
    simp [exclusive_scan] at h

/-- C7, counterexample: the asynchronous overload called with generation 0 returns a
future, the exceptional one, and throws nothing. -/
theorem zero_generation_returns_future :
    exclusive_scan reference_runtime ⟨"scan", 4, 0, 0, 0⟩ 5 (fun a b => a + b) 0 0 =
      .ok (.exceptional .bad_parameter) ∧
    ∀ e, exclusive_scan reference_runtime ⟨"scan", 4, 0, 0, 0⟩ 5 (fun a b => a + b) 0 0 ≠
      .error e := by
  constructor
  · rfl
  · intro e h
    simp [exclusive_scan] at h

/-- C7, amended: for generation 0 the asynchronous overload throws nothing and returns the
ready exceptional future holding `bad_parameter`; the error is raised when that future is
queried, as the `sync_policy` overload does through `get()`. -/
theorem zero_generation_error_is_in_future (rt : runtime κ α) (fid : κ) (local_result : α)
    (op : α → α → α) (this_site : Nat) :
    (∃ f, exclusive_scan rt fid local_result op this_site 0 = .ok f ∧
      f = .exceptional .bad_parameter ∧ f.get rt = .error .bad_parameter) ∧
    exclusive_scan_sync rt fid local_result op this_site 0 = .error .bad_parameter := by
  constructor
  · exact ⟨.exceptional .bad_parameter, by simp [exclusive_scan], rfl, rfl⟩
  · simp [exclusive_scan_sync, exclusive_scan, future.get]

end collectives

namespace traits

/-! ## Retrieval from a slot, the flag and the length of the buffer -/

/-- An invocation of the finalizer for a site below the length of the buffer succeeds; it
leaves the flag set and the length of the buffer as it was. -/
theorem finalizer_total (op : α → α → α) (moved : α → α) (s : slot α) (w : Nat)
    (hw : w < s.data.length) :
    ∃ r s1, finalizer op moved s w = .ok (r, s1) ∧ s1.data_available = true ∧
      s1.data.length = s.data.length := by
  obtain ⟨data, av⟩ := s
  cases av with
  | true =>
    exact ⟨data[w], _, finalizer_available op moved data w data[w]
      (List.getElem?_eq_getElem hw), rfl, by simp⟩
  | false =>
    cases data with
    | nil => simp at hw
    | cons v0 rest =>
      refine ⟨_, _, finalizer_fresh op moved v0 rest w hw, rfl, ?_⟩
      simpa using exclusive_scan_length op (v0 :: rest) v0

/-- Whatever the slot on entry, an invocation of the finalizer that returns leaves the
flag set and the length of the buffer as it was. -/
theorem finalizer_exit (op : α → α → α) (moved : α → α) (s s1 : slot α) (w : Nat) (r : α)
    (h : finalizer op moved s w = .ok (r, s1)) :
    s1.data_available = true ∧ s1.data.length = s.data.length := by
  have hw : w < s.data.length := by
    by_contra hge
    have hge1 : s.data.length ≤ w := Nat.le_of_not_lt hge
    obtain ⟨data, av⟩ := s
    cases av with
    | true =>
      simp [finalizer, List.getElem?_eq_none hge1] at h
    | false =>
      cases data with
      | nil => simp [finalizer] at h
      | cons v0 rest =>
        have hnone : (hpx.exclusive_scan op (v0 :: rest) v0)[w]? = none :=
          List.getElem?_eq_none (by rw [exclusive_scan_length]; exact hge1)
        rw [finalizer_first] at h
        simp [finalizer, hnone] at h
  obtain ⟨r1, s2, hrun, hflag, hlen⟩ := finalizer_total op moved s w hw
  rw [hrun] at h
  have hs : s2 = s1 := by
    have := Except.ok.inj h
    exact (Prod.mk.inj this).2
  rw [← hs]
  exact ⟨hflag, hlen⟩

/-- A sequence of invocations of the finalizer for sites below the length of the buffer
succeeds, one value per invocation; the length of the buffer is kept, a set flag stays set,
and the flag is set after the first invocation. -/
theorem finalize_for_total (op : α → α → α) (moved : α → α) (ws : List Nat) :
    ∀ s : slot α, (∀ w ∈ ws, w < s.data.length) →
      ∃ rs s1, finalize_for op moved s ws = .ok (rs, s1) ∧ rs.length = ws.length ∧
        s1.data.length = s.data.length ∧ (ws ≠ [] → s1.data_available = true) ∧
        (s.data_available = true → s1.data_available = true) := by
  induction ws with
  | nil => intro s _; exact ⟨[], s, rfl, rfl, rfl, fun h => absurd rfl h, fun h => h⟩
  | cons w ws ih =>
    intro s hw
    obtain ⟨r, s1, hrun, hflag, hlen⟩ :=
      finalizer_total op moved s w (hw w (List.mem_cons_self w ws))
    obtain ⟨rs, s2, hrun2, hrs, hlen2, -, hkeep⟩ :=
      ih s1 (by intro j hj; rw [hlen]; exact hw j (List.mem_cons_of_mem w hj))
    refine ⟨r :: rs, s2, ?_, by simp [hrs], hlen2.trans hlen, fun _ => hkeep hflag,
      fun _ => hkeep hflag⟩
    simp [finalize_for, hrun, hrun2]

/-- C11, counterexample: on the finalized slot `[[1], [1, 1]]` of `std::vector` elements (a
moved-from vector is empty) the first retrieval for site 1 returns `[1, 1]` and leaves the
buffer `[[1], []]`; the second retrieval for site 1 returns `[]`. -/
theorem repeated_retrieval_differs :
    finalizer (fun a b : List Nat => a ++ b) (fun _ => []) ⟨[[1], [1, 1]], true⟩ 1 =
      .ok ([1, 1], ⟨[[1], []], true⟩) ∧
    finalizer (fun a b : List Nat => a ++ b) (fun _ => []) ⟨[[1], []], true⟩ 1 =
      .ok ([], ⟨[[1], []], true⟩) :=
  ⟨rfl, rfl⟩

/-- C11, amended: on every finalized slot and for every site `w < N`, a retrieval for `w`
followed by a second one for `w` both succeed; the second returns the moved-from state of
the value the first returned, the flag stays set, the length of the buffer and every cell
other than `w` stay as they were.  When a move is a copy, the second retrieval returns the
same value as the first and both leave the slot unchanged. -/
theorem retrieval_again (op : α → α → α) (moved : α → α) (b : List α) (w : Nat)
    (hw : w < b.length) :
    ∃ r s1 s2, finalizer op moved ⟨b, true⟩ w = .ok (r, s1) ∧
      finalizer op moved s1 w = .ok (moved r, s2) ∧
      s1.data_available = true ∧ s2.data_available = true ∧
      s2.data.length = b.length ∧ (∀ j, j ≠ w → s2.data[j]? = b[j]?) ∧
      ((∀ x, moved x = x) →
        finalizer op moved s1 w = .ok (r, s1) ∧ s1 = ⟨b, true⟩ ∧ s2 = ⟨b, true⟩) := by
  have hget : b[w]? = some b[w] := List.getElem?_eq_getElem hw
  have h1 := finalizer_available op moved b w b[w] hget
  have hget2 : (b.set w (moved b[w]))[w]? = some (moved b[w]) := List.getElem?_set_self hw
  have h2 := finalizer_available op moved (b.set w (moved b[w])) w (moved b[w]) hget2
  refine ⟨b[w], _, _, h1, h2, rfl, rfl, by simp, ?_, ?_⟩
  · intro j hj
    simp only [List.set_set]
    exact List.getElem?_set_ne (Ne.symm hj)
  · intro hid
    have hm : moved = id := funext hid
    subst hm
    have hb : b.set w b[w] = b := set_getElem_same b w hw
    simp only [id_eq, List.set_set, hb] at h2
    refine ⟨?_, ?_, ?_⟩
    · simp only [id_eq, hb]
      exact h2
    · simp only [id_eq, hb]
    · simp only [id_eq, List.set_set, hb]

/-- Witness of the amended C11: site 2 of the finalized integer slot `[1, 2, 4, 7]`. -/
theorem retrieval_again_witness :
    ∃ r s1 s2, finalizer (fun a b : Int => a + b) id ⟨[1, 2, 4, 7], true⟩ 2 = .ok (r, s1) ∧
      finalizer (fun a b : Int => a + b) id s1 2 = .ok (id r, s2) ∧
      s1.data_available = true ∧ s2.data_available = true ∧
      s2.data.length = ([1, 2, 4, 7] : List Int).length ∧
      (∀ j, j ≠ 2 → s2.data[j]? = ([1, 2, 4, 7] : List Int)[j]?) ∧
      ((∀ x : Int, id x = x) →
        finalizer (fun a b : Int => a + b) id s1 2 = .ok (r, s1) ∧
        s1 = ⟨[1, 2, 4, 7], true⟩ ∧ s2 = ⟨[1, 2, 4, 7], true⟩) :=
  retrieval_again (fun a b : Int => a + b) id [1, 2, 4, 7] 2 (by decide)

theorem invoke_flag (op : α → α → α) (moved : α → α) (s s1 : slot α) (c : invocation α)
    (h : invoke op moved s c = .ok s1) :
    (s.data_available = true → s1.data_available = true) ∧
    (∀ w, c = .finalize w → s1.data_available = true) := by
  cases c with
  | step which t =>
    cases hstep : step s.data which t with
    | error e => simp [invoke, hstep] at h
    | ok data1 =>
      simp only [invoke, hstep, Except.ok.injEq] at h
      subst h
      exact ⟨fun hs => hs, fun w hw => by cases hw⟩
  | finalize which =>
    cases hfin : finalizer op moved s which with
    | error e => simp [invoke, hfin] at h
    | ok p =>
      obtain ⟨r, s2⟩ := p
      simp only [invoke, hfin, Except.ok.injEq] at h
      subst h
      have hexit := (finalizer_exit op moved s s2 which r hfin).1
      exact ⟨fun _ => hexit, fun _ _ => hexit⟩

theorem invoke_all_flag (op : α → α → α) (moved : α → α) (cs : List (invocation α)) :
    ∀ s s1 : slot α, invoke_all op moved s cs = .ok s1 →
      (s.data_available = true ∨ ∃ w, invocation.finalize w ∈ cs) →
      s1.data_available = true := by
  induction cs with
  | nil =>
    intro s s1 h hs
    simp only [invoke_all, Except.ok.injEq] at h
    subst h
    rcases hs with hs | ⟨w, hw⟩
    · exact hs
    · simp at hw
  | cons c cs ih =>
    intro s s1 h hs
    cases hc : invoke op moved s c with
    | error e => simp [invoke_all, hc] at h
    | ok s2 =>
      simp only [invoke_all, hc] at h
      have hflag := invoke_flag op moved s s2 c hc
      apply ih s2 s1 h
      rcases hs with hs | ⟨w, hw⟩
      · exact Or.inl (hflag.1 hs)
      · rcases List.mem_cons.mp hw with hw1 | hw1
        · exact Or.inl (hflag.2 w hw1.symm)
        · exact Or.inr ⟨w, hw1⟩

/-- C12: the flag is monotone.  On every slot, an invocation of the finalizer for a site
below the length of the buffer returns, and every invocation that returns leaves
`data_available` set, whatever it was on entry; over every sequence of invocations of the
step function and of the finalizer, a flag that is set, or that a finalizer invocation of
the sequence has set, is set at the end. -/
theorem data_available_monotone (op : α → α → α) (moved : α → α) (s : slot α) :
    (∀ w, w < s.data.length →
      ∃ r s1, finalizer op moved s w = .ok (r, s1) ∧ s1.data_available = true) ∧
    (∀ w r s1, finalizer op moved s w = .ok (r, s1) → s1.data_available = true) ∧
    (∀ cs s1, invoke_all op moved s cs = .ok s1 →
      (s.data_available = true ∨ ∃ w, invocation.finalize w ∈ cs) →
      s1.data_available = true) := by
  refine ⟨?_, ?_, ?_⟩
  · intro w hw
    obtain ⟨r, s1, hrun, hflag, -⟩ := finalizer_total op moved s w hw
    exact ⟨r, s1, hrun, hflag⟩
  · intro w r s1 h
    exact (finalizer_exit op moved s s1 w r h).1
  · intro cs s1 h hs
    exact invoke_all_flag op moved cs s s1 h hs

/-- Witness of C12: on the integer buffer `[1, 2, 3, 4]` with the flag unset, the finalizer
for site 1, a late step for site 0 and the finalizer for site 3 leave the flag set. -/
theorem data_available_monotone_witness :
    (∃ r s1, finalizer (fun a b : Int => a + b) id ⟨[1, 2, 3, 4], false⟩ 1 = .ok (r, s1) ∧
      s1.data_available = true) ∧
    (∀ s1, invoke_all (fun a b : Int => a + b) id ⟨[1, 2, 3, 4], false⟩
        [.finalize 1, .step 0 9, .finalize 3] = .ok s1 → s1.data_available = true) ∧
    invoke_all (fun a b : Int => a + b) id ⟨[1, 2, 3, 4], false⟩
        [.finalize 1, .step 0 9, .finalize 3] = .ok ⟨[9, 2, 4, 7], true⟩ :=
  ⟨(data_available_monotone (fun a b : Int => a + b) id ⟨[1, 2, 3, 4], false⟩).1 1
      (by decide),
    fun s1 h =>
      (data_available_monotone (fun a b : Int => a + b) id ⟨[1, 2, 3, 4], false⟩).2.2 _ s1 h
        (Or.inr ⟨1, List.mem_cons_self _ _⟩),
    rfl⟩

/-- C13: one entry per site.  On every slot, each sequence of finalizer invocations for
sites below the length `N` of the buffer succeeds with one value per invocation, and the
buffer left behind has length `N`: the invocation that scans keeps the length, and so does
every later one. -/
theorem results_length (op : α → α → α) (moved : α → α) (s : slot α) (ws : List Nat)
    (hw : ∀ w ∈ ws, w < s.data.length) :
    ∃ rs s1, finalize_for op moved s ws = .ok (rs, s1) ∧ s1.data.length = s.data.length ∧
      rs.length = ws.length := by
  obtain ⟨rs, s1, hrun, hrs, hlen, -, -⟩ := finalize_for_total op moved ws s hw
  exact ⟨rs, s1, hrun, hlen, hrs⟩

/-- Witness of C13: the complete integer buffer `[1, 2, 3, 4]`, the finalizer invoked for
the sites 3, 0, 0, 2. -/
theorem results_length_witness :
    ∃ rs s1, finalize_for (fun a b : Int => a + b) id ⟨[1, 2, 3, 4], false⟩ [3, 0, 0, 2] =
        .ok (rs, s1) ∧
      s1.data.length = (⟨[1, 2, 3, 4], false⟩ : slot Int).data.length ∧
      rs.length = [3, 0, 0, 2].length :=
  results_length (fun a b : Int => a + b) id ⟨[1, 2, 3, 4], false⟩ [3, 0, 0, 2] (by decide)

/-- C14: the step function.  For every buffer, every site `w` below its length and every
value `t`, the step succeeds and leaves `data[w] = t`, every other cell and the length of
the buffer unchanged. -/
theorem step_frame (data : List α) (w : Nat) (t : α) (hw : w < data.length) :
    ∃ data1, step data w t = .ok data1 ∧ data1[w]? = some t ∧
      (∀ j, j ≠ w → data1[j]? = data[j]?) ∧ data1.length = data.length := by
  refine ⟨data.set w t, by simp [step, hw], List.getElem?_set_self hw, ?_, by simp⟩
  intro j hj
  exact List.getElem?_set_ne (Ne.symm hj)

/-- Witness of C14: the value 9 stored for site 2 of the buffer `[1, 2, 3, 4]`. -/
theorem step_frame_witness :
    ∃ data1, step ([1, 2, 3, 4] : List Int) 2 9 = .ok data1 ∧ data1[2]? = some 9 ∧
      (∀ j, j ≠ 2 → data1[j]? = ([1, 2, 3, 4] : List Int)[j]?) ∧
      data1.length = ([1, 2, 3, 4] : List Int).length :=
  step_frame [1, 2, 3, 4] 2 9 (by decide)

/-! ## Order of arrival and the branch for `bool` -/

/-- Arrivals that carry, for each site, the value `vs` assigns to it: every step succeeds
on a buffer of the length of `vs`, and the buffer left holds `vs[j]` in every cell `j` for
which a contribution arrived and the cell found in every other. -/
theorem steps_getElem? (vs : List α) (arr : List (Nat × α)) :
    ∀ b : List α, b.length = vs.length → (∀ p ∈ arr, vs[p.1]? = some p.2) →
      ∃ b1, steps b arr = .ok b1 ∧ b1.length = vs.length ∧
        ∀ j, b1[j]? = if j ∈ arr.map Prod.fst then vs[j]? else b[j]? := by
  induction arr with
  | nil => intro b hb _; exact ⟨b, rfl, hb, fun j => by simp⟩
  | cons p rest ih =>
    intro b hb hvs
    obtain ⟨w, v⟩ := p
    have hwv : vs[w]? = some v := hvs (w, v) (List.mem_cons_self _ _)
    have hw : w < b.length := by
      rw [hb]
      by_contra hge
      rw [List.getElem?_eq_none (Nat.le_of_not_lt hge)] at hwv
      cases hwv
    obtain ⟨b1, hrun, hlen, hcells⟩ :=
      ih (b.set w v) (by simpa using hb) (fun q hq => hvs q (List.mem_cons_of_mem _ hq))
    refine ⟨b1, by simp [steps, step, hw, hrun], hlen, ?_⟩
    intro j
    rw [hcells j]
    by_cases hj : j ∈ rest.map Prod.fst
    · have hj1 : j ∈ ((w, v) :: rest).map Prod.fst := by
        simp only [List.map_cons, List.mem_cons]
        exact Or.inr hj
      rw [if_pos hj, if_pos hj1]
    · rw [if_neg hj]
      by_cases hjw : j = w
      · subst hjw
        have hj1 : j ∈ ((j, v) :: rest).map Prod.fst := by simp
        rw [if_pos hj1, List.getElem?_set_self hw, hwv]
      · have hj1 : j ∉ ((w, v) :: rest).map Prod.fst := by
          simp only [List.map_cons, List.mem_cons, not_or]
          exact ⟨hjw, hj⟩
        rw [if_neg hj1]
        exact List.getElem?_set_ne (Ne.symm hjw)

theorem steps_of_perm (vs fresh : List α) (arr : List (Nat × α))
    (hlen : fresh.length = vs.length) (hperm : arr.Perm vs.enum) :
    steps fresh arr = .ok vs := by
  obtain ⟨b1, hrun, hlen1, hcells⟩ :=
    steps_getElem? vs arr fresh hlen (by
      intro p hp
      have hmem : (p.1, p.2) ∈ vs.enum := hperm.mem_iff.mp hp
      exact List.mk_mem_enum_iff_getElem?.mp hmem)
  have hb1 : b1 = vs := by
    apply List.ext_getElem?
    intro j
    rw [hcells j]
    have hmemj : j ∈ arr.map Prod.fst ↔ j < vs.length := by
      rw [(hperm.map Prod.fst).mem_iff, List.enum_map_fst, List.mem_range]
    by_cases hj : j < vs.length
    · rw [if_pos (hmemj.mpr hj)]
    · rw [if_neg (fun h => hj (hmemj.mp h)),
        List.getElem?_eq_none (by rw [hlen]; exact Nat.le_of_not_lt hj),
        List.getElem?_eq_none (Nat.le_of_not_lt hj)]
  rw [hrun, hb1]

/-- C15: arrival-order independence.  For every assignment `vs` of values to the `N` sites
and every buffer of length `N` to start from, the step function applied once for every
site, in any order of arrival, leaves the buffer `vs`, as it does in site-index order; the
per-site results the finalizer then hands out are the same. -/
theorem arrival_order_independent (op : α → α → α) (moved : α → α) (vs fresh : List α)
    (arr : List (Nat × α)) (hlen : fresh.length = vs.length) (hperm : arr.Perm vs.enum) :
    steps fresh arr = .ok vs ∧ steps fresh vs.enum = .ok vs ∧
    (steps fresh arr).bind (site_results op moved) =
      (steps fresh vs.enum).bind (site_results op moved) := by
  have h1 := steps_of_perm vs fresh arr hlen hperm
  have h2 := steps_of_perm vs fresh vs.enum hlen (List.Perm.refl _)
  exact ⟨h1, h2, by rw [h1, h2]⟩

/-- Witness of C15: the values `[10, 20, 30, 40]` arriving in the order of the sites
2, 0, 3, 1 on the buffer `[0, 0, 0, 0]`. -/
theorem arrival_order_independent_witness :
    steps ([0, 0, 0, 0] : List Int) [(2, 30), (0, 10), (3, 40), (1, 20)] =
      .ok [10, 20, 30, 40] ∧
    steps ([0, 0, 0, 0] : List Int) ([10, 20, 30, 40] : List Int).enum =
      .ok [10, 20, 30, 40] ∧
    (steps ([0, 0, 0, 0] : List Int) [(2, 30), (0, 10), (3, 40), (1, 20)]).bind
        (site_results (fun a b : Int => a + b) id) =
      (steps ([0, 0, 0, 0] : List Int) ([10, 20, 30, 40] : List Int).enum).bind
        (site_results (fun a b : Int => a + b) id) :=
  arrival_order_independent (fun a b : Int => a + b) id [10, 20, 30, 40] [0, 0, 0, 0]
    [(2, 30), (0, 10), (3, 40), (1, 20)] rfl (by decide)

theorem set_of_getElem? (b : List α) (w : Nat) (r : α) (h : b[w]? = some r) :
    b.set w r = b := by
  have hw : w < b.length := by
    by_contra hge
    rw [List.getElem?_eq_none (Nat.le_of_not_lt hge)] at h
    cases h
  have hrw : b[w] = r := by
    rw [List.getElem?_eq_getElem hw] at h
    exact Option.some.inj h
  rw [← hrw]
  exact set_getElem_same b w hw

theorem finalizer_bool_first (op : Bool → Bool → Bool) (v0 : Bool) (rest : List Bool)
    (w : Nat) :
    finalizer_bool op ⟨v0 :: rest, false⟩ w =
      finalizer_bool op ⟨hpx.exclusive_scan op (v0 :: rest) v0, true⟩ w :=
  rfl

theorem finalizer_bool_eq (op : Bool → Bool → Bool) (s : slot Bool) (w : Nat) :
    finalizer_bool op s w = finalizer op id s w := by
  have havail : ∀ b : List Bool,
      finalizer_bool op ⟨b, true⟩ w = finalizer op id ⟨b, true⟩ w := by
    intro b
    cases hr : b[w]? with
    | none => simp [finalizer_bool, finalizer, hr]
    | some r =>
      simp [finalizer_bool, finalizer, hr, static_cast_bool, set_of_getElem? b w r hr]
  obtain ⟨data, av⟩ := s
  cases av with
  | true => exact havail data
  | false =>
    cases data with
    | nil => simp [finalizer_bool, finalizer]
    | cons v0 rest => rw [finalizer_bool_first, finalizer_first, havail]

/-- C16: the branch for `bool`.  For every boolean `op`, every slot and every site the
adapter branch returns the value and leaves the slot that the generic branch does (a move
of a `bool` being a copy); on a complete buffer `v0 :: rest` site 0 receives `v0` and site
`k + 1` receives `op (... (op (op v0 v0) v1) ...) vk`, the seeding rule of the generic
branch. -/
theorem bool_branch_agrees (op : Bool → Bool → Bool) (s : slot Bool) (w : Nat) (v0 : Bool)
    (rest : List Bool) :
    finalizer_bool op s w = finalizer op id s w ∧
    (finalizer_bool op ⟨v0 :: rest, false⟩ 0).map Prod.fst = .ok v0 ∧
    ∀ k, k < rest.length →
      (finalizer_bool op ⟨v0 :: rest, false⟩ (k + 1)).map Prod.fst =
        .ok ((rest.take k).foldl op (op v0 v0)) := by
  refine ⟨finalizer_bool_eq op s w, ?_, ?_⟩
  · rw [finalizer_bool_eq, finalizer_fresh op id v0 rest 0 (by simp)]
    rfl
  · intro k hk
    rw [finalizer_bool_eq, finalizer_fresh op id v0 rest (k + 1) (by simpa using hk)]
    rfl

/-- Witness of C16: the contributions `[true, false, true, true]` under logical AND; site 2
receives `(true && true) && false = false`. -/
theorem bool_branch_agrees_witness :
    finalizer_bool (fun a b => a && b) ⟨[true, false, true, true], false⟩ 2 =
      finalizer (fun a b => a && b) id ⟨[true, false, true, true], false⟩ 2 ∧
    (finalizer_bool (fun a b => a && b) ⟨[true, false, true, true], false⟩ 0).map Prod.fst =
      .ok true ∧
    (finalizer_bool (fun a b => a && b) ⟨[true, false, true, true], false⟩ (1 + 1)).map
        Prod.fst =
      .ok (([false, true, true].take 1).foldl (fun a b => a && b) (true && true)) :=
  ⟨(bool_branch_agrees (fun a b => a && b) ⟨[true, false, true, true], false⟩ 2 true
      [false, true, true]).1,
    (bool_branch_agrees (fun a b => a && b) ⟨[true, false, true, true], false⟩ 2 true
      [false, true, true]).2.1,
    (bool_branch_agrees (fun a b => a && b) ⟨[true, false, true, true], false⟩ 2 true
      [false, true, true]).2.2 1 (by decide)⟩

end traits

namespace collectives

/-! ## The wrappers and the default site -/

/-- C17: wrapper equivalence.  The generation-first overload returns what the core
communicator overload returns, and each `sync_policy` overload returns the value held by, or
rethrows the error of, the future the corresponding asynchronous overload returns for the
same arguments (and throws what that overload throws). -/
theorem wrappers_agree (rt : runtime κ α) (fid : κ) (basename : String) (local_result : α)
    (op : α → α → α) (num_sites this_site generation root_site : Nat) :
    exclusive_scan_generation_first rt fid local_result op generation this_site =
      exclusive_scan rt fid local_result op this_site generation ∧
    exclusive_scan_sync rt fid local_result op this_site generation =
      (exclusive_scan rt fid local_result op this_site generation).bind (future.get rt) ∧
    exclusive_scan_sync_generation_first rt fid local_result op generation this_site =
      (exclusive_scan_generation_first rt fid local_result op generation this_site).bind
        (future.get rt) ∧
    exclusive_scan_sync_basename rt basename local_result op num_sites this_site generation
        root_site =
      (exclusive_scan_basename rt basename local_result op num_sites this_site generation
        root_site).bind (future.get rt) := by
  refine ⟨rfl, ?_, ?_, ?_⟩
  · unfold exclusive_scan_sync
    cases exclusive_scan rt fid local_result op this_site generation <;> rfl
  · unfold exclusive_scan_sync_generation_first exclusive_scan_generation_first
    cases exclusive_scan rt fid local_result op this_site generation <;> rfl
  · unfold exclusive_scan_sync_basename exclusive_scan_basename
    cases rt.create_communicator basename num_sites this_site generation root_site with
    | error e => rfl
    | ok c =>
      simp only []
      cases exclusive_scan rt c local_result op this_site rt.generation_default <;> rfl

/-- C18: default site identity.  For a generation other than 0 the contribution is
dispatched with the locality id of the caller as site when `this_site` is the unset marker
`size_t(-1)`, and with `this_site` unchanged when it is any other value. -/
theorem default_site_is_locality (rt : runtime κ α) (fid : κ) (local_result : α)
    (op : α → α → α) (this_site generation : Nat) (hg : generation ≠ 0) :
    (this_site = unset →
      exclusive_scan rt fid local_result op this_site generation =
        .ok (.dispatched ⟨fid, rt.locality_id, generation, local_result, op⟩)) ∧
    (this_site ≠ unset →
      exclusive_scan rt fid local_result op this_site generation =
        .ok (.dispatched ⟨fid, this_site, generation, local_result, op⟩)) := by
  constructor
  · intro hs
    simp [exclusive_scan, hs, hg]
  · intro hs
    simp [exclusive_scan, hs, hg]

/-- Witness of C18 on locality 3: the call with `this_site` unset is dispatched for site 3,
the call with `this_site = 1` for site 1. -/
theorem default_site_is_locality_witness :
    exclusive_scan { reference_runtime with locality_id := 3 } ⟨"scan", 4, unset, 1, 0⟩ 5
        (fun a b => a + b) unset 1 =
      .ok (.dispatched ⟨⟨"scan", 4, unset, 1, 0⟩, 3, 1, 5, fun a b => a + b⟩) ∧
    exclusive_scan { reference_runtime with locality_id := 3 } ⟨"scan", 4, 1, 1, 0⟩ 5
        (fun a b => a + b) 1 1 =
      .ok (.dispatched ⟨⟨"scan", 4, 1, 1, 0⟩, 1, 1, 5, fun a b => a + b⟩) :=
  ⟨(default_site_is_locality { reference_runtime with locality_id := 3 }
      ⟨"scan", 4, unset, 1, 0⟩ 5 (fun a b => a + b) unset 1 (by decide)).1 rfl,
    (default_site_is_locality { reference_runtime with locality_id := 3 }
      ⟨"scan", 4, 1, 1, 0⟩ 5 (fun a b => a + b) 1 1 (by decide)).2 (by decide)⟩

end collectives

/-! ## The claims on `generate_n` and on `generate` -/

theorem sequential_generate_n_cells {σ : Type v} (f : σ → α × σ) (n : Nat) :
    ∀ (xs : List α) (first : Nat) (g : σ), first + n ≤ xs.length →
      ∃ r, parallel.detail.sequential_generate_n f xs first n g = .ok r ∧
        r.result = first + n ∧ r.generator = generator_after f n g ∧
        r.range.length = xs.length ∧
        (∀ i, i < n → r.range[first + i]? = some (generated_value f i g)) ∧
        (∀ j, j < first ∨ first + n ≤ j → r.range[j]? = xs[j]?) := by
  induction n with
  | zero =>
    intro xs first g _
    exact ⟨⟨xs, g, first⟩, rfl, rfl, rfl, rfl, fun i hi => absurd hi (Nat.not_lt_zero i),
      fun _ _ => rfl⟩
  | succ n ih =>
    intro xs first g h
    have hlt : first < xs.length := by omega
    obtain ⟨r, hrun, hres, hgen, hlen, hcells, hframe⟩ :=
      ih (xs.set first (f g).1) (first + 1) (f g).2 (by simp; omega)
    refine ⟨r, ?_, by omega, ?_, by simpa using hlen, ?_, ?_⟩
    · simp [parallel.detail.sequential_generate_n, hlt, hrun]
    · rw [hgen]
      rfl
    · intro i hi
      cases i with
      | zero =>
        rw [Nat.add_zero, hframe first (Or.inl (Nat.lt_succ_self first)),
          List.getElem?_set_self hlt]
        rfl
      | succ i =>
        have := hcells i (by omega)
        rw [show first + (i + 1) = first + 1 + i by omega, this]
        rfl
    · intro j hj
      have hj1 : j < first + 1 ∨ first + 1 + n ≤ j := by omega
      rw [hframe j hj1]
      exact List.getElem?_set_ne (by omega)

theorem sequential_generate_eq {σ : Type v} (f : σ → α × σ) (d : Nat) :
    ∀ (xs : List α) (first last : Nat) (g : σ), last - first = d → first ≤ last →
      parallel.detail.sequential_generate f xs first last g =
        parallel.detail.sequential_generate_n f xs first d g := by
  induction d with
  | zero =>
    intro xs first last g hd hle
    have heq : first = last := by omega
    rw [parallel.detail.sequential_generate]
    simp [heq, parallel.detail.sequential_generate_n]
  | succ d ih =>
    intro xs first last g hd hle
    have hne : first ≠ last := by omega
    have hlt : first < last := by omega
    rw [parallel.detail.sequential_generate]
    by_cases hin : first < xs.length
    · simp only [hne, hlt, hin, if_true, if_false, dite_true,
        parallel.detail.sequential_generate_n]
      exact ih _ (first + 1) last _ (by omega) (by omega)
    · simp [hne, hlt, hin, parallel.detail.sequential_generate_n]

/-- C20: the value `generate_n` returns.  For a `count` that is negative or zero the call
returns `first`, the sequence and the state of the generator being those found: `f` is not
invoked and no element is assigned.  For a positive `count` whose range
`[first, first + count)` lies within the sequence the call invokes `f` `count` times and
assigns the elements `first .. first + count - 1` the successive values, no element from
`first + count` on and none below `first`, and returns `first` advanced by `count`: the
iterator one past the last element assigned. -/
theorem generate_n_returns {σ : Type v} (f : σ → α × σ) (xs : List α) (first : Nat)
    (count : Int) (g : σ) :
    (count ≤ 0 → generate_n f xs first count g = .ok ⟨xs, g, first⟩) ∧
    (0 < count → count < 2 ^ 64 → first + count.toNat ≤ xs.length →
      ∃ r, generate_n f xs first count g = .ok r ∧ r.result = first + count.toNat ∧
        r.generator = generator_after f count.toNat g ∧
        r.range.length = xs.length ∧
        r.range[r.result - 1]? = some (generated_value f (count.toNat - 1) g) ∧
        (∀ i, i < count.toNat → r.range[first + i]? = some (generated_value f i g)) ∧
        (∀ j, j < first ∨ r.result ≤ j → r.range[j]? = xs[j]?)) := by
  constructor
  · intro hc
    by_cases hneg : count < 0
    · simp [generate_n, parallel.detail.is_negative, hneg]
    · have h0 : count = 0 := by omega
      subst h0
      simp [generate_n, parallel.detail.is_negative, parallel.detail.generate_n.sequential,
        static_cast_size_t, parallel.detail.sequential_generate_n]
  · intro hpos hlt hrange
    have hcast : static_cast_size_t count = count.toNat := by
      unfold static_cast_size_t
      rw [Int.emod_eq_of_lt (by omega) hlt]
    have hn : 0 < count.toNat := by omega
    obtain ⟨r, hrun, hres, hgen, hlen, hcells, hframe⟩ :=
      sequential_generate_n_cells f count.toNat xs first g hrange
    refine ⟨r, ?_, hres, hgen, hlen, ?_, hcells, ?_⟩
    · have hneg : ¬ count < 0 := by omega
      simp [generate_n, parallel.detail.is_negative, hneg,
        parallel.detail.generate_n.sequential, hcast, hrun]
    · have hlast := hcells (count.toNat - 1) (by omega)
      rw [hres, show first + count.toNat - 1 = first + (count.toNat - 1) by omega]
      exact hlast
    · intro j hj
      exact hframe j (by omega)

/-- Witness of C20 with a counting generator on a sequence of five elements: `count = -3`
returns `first = 1` with the generator not invoked, `count = 3` returns `1 + 3`, the element
at position 3 being the last one assigned. -/
theorem generate_n_returns_witness :
    generate_n (fun g : Nat => ((10 : Int) * g, g + 1)) [7, 7, 7, 7, 7] 1 (-3) 0 =
      .ok ⟨[7, 7, 7, 7, 7], 0, 1⟩ ∧
    ∃ r, generate_n (fun g : Nat => ((10 : Int) * g, g + 1)) [7, 7, 7, 7, 7] 1 3 0 = .ok r ∧
      r.result = 1 + (3 : Int).toNat ∧
      r.generator = generator_after (fun g : Nat => ((10 : Int) * g, g + 1))
        (3 : Int).toNat 0 ∧
      r.range.length = ([7, 7, 7, 7, 7] : List Int).length ∧
      r.range[r.result - 1]? =
        some (generated_value (fun g : Nat => ((10 : Int) * g, g + 1))
          ((3 : Int).toNat - 1) 0) ∧
      (∀ i, i < (3 : Int).toNat → r.range[1 + i]? =
        some (generated_value (fun g : Nat => ((10 : Int) * g, g + 1)) i 0)) ∧
      (∀ j, j < 1 ∨ r.result ≤ j → r.range[j]? = ([7, 7, 7, 7, 7] : List Int)[j]?) :=
  ⟨(generate_n_returns (fun g : Nat => ((10 : Int) * g, g + 1)) [7, 7, 7, 7, 7] 1 (-3) 0).1
      (by decide),
    (generate_n_returns (fun g : Nat => ((10 : Int) * g, g + 1)) [7, 7, 7, 7, 7] 1 3 0).2
      (by decide) (by decide) (by decide)⟩

/-- C21: the sequential `generate`.  For every range `[first, last)` within the sequence,
of length `n = last - first`, and every generator `f`, the call returns `last`; the
generator is left in the state `n` invocations produce, element `first + i` of the sequence
holds the value of invocation `i` for every `i < n` (one assignment for each invocation),
and every element outside the range and the length of the sequence are unchanged. -/
theorem generate_assigns {σ : Type v} (f : σ → α × σ) (xs : List α) (first last : Nat)
    (g : σ) (hle : first ≤ last) (hlast : last ≤ xs.length) :
    ∃ r, generate f xs first last g = .ok r ∧ r.result = last ∧
      r.generator = generator_after f (last - first) g ∧
      r.range.length = xs.length ∧
      (∀ i, i < last - first → r.range[first + i]? = some (generated_value f i g)) ∧
      (∀ j, j < first ∨ last ≤ j → r.range[j]? = xs[j]?) := by
  obtain ⟨r, hrun, hres, hgen, hlen, hcells, hframe⟩ :=
    sequential_generate_n_cells f (last - first) xs first g (by omega)
  refine ⟨r, ?_, by omega, hgen, hlen, hcells, ?_⟩
  · unfold generate parallel.detail.generate.sequential
    rw [sequential_generate_eq f (last - first) xs first last g rfl hle, hrun]
  · intro j hj
    exact hframe j (by omega)

/-- Witness of C21: a counting generator that produces `0, 10, 20, ...` on the range
`[1, 4)` of a sequence of five elements. -/
theorem generate_assigns_witness :
    ∃ r, generate (fun g : Nat => ((10 : Int) * g, g + 1)) [7, 7, 7, 7, 7] 1 4 0 = .ok r ∧
      r.result = 4 ∧
      r.generator = generator_after (fun g : Nat => ((10 : Int) * g, g + 1)) (4 - 1) 0 ∧
      r.range.length = ([7, 7, 7, 7, 7] : List Int).length ∧
      (∀ i, i < 4 - 1 → r.range[1 + i]? =
        some (generated_value (fun g : Nat => ((10 : Int) * g, g + 1)) i 0)) ∧
      (∀ j, j < 1 ∨ 4 ≤ j → r.range[j]? = ([7, 7, 7, 7, 7] : List Int)[j]?) :=
  generate_assigns (fun g : Nat => ((10 : Int) * g, g + 1)) [7, 7, 7, 7, 7] 1 4 0
    (by decide) (by decide)

/-- C22: the sequential `generate_n`.  For every `count > 0` whose range
`[first, first + count)` lies within the sequence and every generator `f`, the generator is
left in the state `count` invocations produce, the elements at the positions
`first .. first + count - 1` hold the successive values of `f` (one assignment for each
invocation), and every other element and the length of the sequence are unchanged. -/
theorem generate_n_assigns {σ : Type v} (f : σ → α × σ) (xs : List α) (first : Nat)
    (count : Int) (g : σ) (hpos : 0 < count) (hlt : count < 2 ^ 64)
    (hrange : first + count.toNat ≤ xs.length) :
    ∃ r, generate_n f xs first count g = .ok r ∧
      r.generator = generator_after f count.toNat g ∧
      r.range.length = xs.length ∧
      (∀ i, i < count.toNat → r.range[first + i]? = some (generated_value f i g)) ∧
      (∀ j, j < first ∨ first + count.toNat ≤ j → r.range[j]? = xs[j]?) := by
  have hcast : static_cast_size_t count = count.toNat := by
    unfold static_cast_size_t
    rw [Int.emod_eq_of_lt (by omega) hlt]
  obtain ⟨r, hrun, -, hgen, hlen, hcells, hframe⟩ :=
    sequential_generate_n_cells f count.toNat xs first g hrange
  refine ⟨r, ?_, hgen, hlen, hcells, hframe⟩
  have hneg : ¬ count < 0 := by omega
  simp [generate_n, parallel.detail.is_negative, hneg,
    parallel.detail.generate_n.sequential, hcast, hrun]

/-- Witness of C22: a counting generator that produces `0, 10, 20, ...`, `count = 3` from
position 1 of a sequence of five elements. -/
theorem generate_n_assigns_witness :
    ∃ r, generate_n (fun g : Nat => ((10 : Int) * g, g + 1)) [7, 7, 7, 7, 7] 1 3 0 = .ok r ∧
      r.generator = generator_after (fun g : Nat => ((10 : Int) * g, g + 1))
        (3 : Int).toNat 0 ∧
      r.range.length = ([7, 7, 7, 7, 7] : List Int).length ∧
      (∀ i, i < (3 : Int).toNat → r.range[1 + i]? =
        some (generated_value (fun g : Nat => ((10 : Int) * g, g + 1)) i 0)) ∧
      (∀ j, j < 1 ∨ 1 + (3 : Int).toNat ≤ j →
        r.range[j]? = ([7, 7, 7, 7, 7] : List Int)[j]?) :=
  generate_n_assigns (fun g : Nat => ((10 : Int) * g, g + 1)) [7, 7, 7, 7, 7] 1 3 0
    (by decide) (by decide) (by decide)

namespace traits

/-! ## Idempotent seeds, dependence on the lower sites and bounds -/

theorem finalizer_agree (op : α → α → α) (moved : α → α) (d d1 : List α) (k : Nat)
    (hlen : d.length = d1.length) (hk : k < d.length) (h0 : d[0]? = d1[0]?)
    (hagree : ∀ j, j < k → d[j]? = d1[j]?) :
    ∃ r, (finalizer op moved ⟨d, false⟩ k).map Prod.fst = .ok r ∧
      (finalizer op moved ⟨d1, false⟩ k).map Prod.fst = .ok r := by
  cases d with
  | nil => simp at hk
  | cons v0 rest =>
    cases d1 with
    | nil => simp at hlen
    | cons w0 rest1 =>
      have hv : v0 = w0 := by simpa using h0
      subst hv
      have htake : (v0 :: rest).take k = (v0 :: rest1).take k :=
        take_eq_of_agree k _ _ hagree
      refine ⟨((v0 :: rest).take k).foldl op v0, ?_, ?_⟩
      · rw [finalizer_fresh op moved v0 rest k hk]
        rfl
      · rw [finalizer_fresh op moved v0 rest1 k (by rw [← hlen]; exact hk), htake]
        rfl

/-- C26: on a complete buffer `v0 :: rest` with `op v0 v0 = v0`, and with no other
assumption on `op`, site `k + 1` receives the left fold of `v1 .. vk` under `op` seeded
with `v0`: every contribution is applied once. -/
theorem idempotent_seed_fold (op : α → α → α) (moved : α → α) (v0 : α) (rest : List α)
    (k : Nat) (hid : op v0 v0 = v0) (hk : k < rest.length) :
    (finalizer op moved ⟨v0 :: rest, false⟩ (k + 1)).map Prod.fst =
      .ok ((rest.take k).foldl op v0) ∧
    ∃ rs, site_results op moved (v0 :: rest) = .ok rs ∧
      rs[k + 1]? = some ((rest.take k).foldl op v0) := by
  have hk1 : k + 1 < (v0 :: rest).length := by simpa using hk
  constructor
  · rw [finalizer_fresh op moved v0 rest (k + 1) hk1]
    simp [Except.map, hid]
  · refine ⟨_, site_results_eq_scan op moved v0 rest, ?_⟩
    rw [exclusive_scan_getElem? op (v0 :: rest) v0 (k + 1) hk1]
    simp [hid]

/-- Witness of C26: the contributions `[3, 1, 5, 2]` under `max`; site 3 receives
`max (max 3 1) 5 = 5`. -/
theorem idempotent_seed_fold_witness :
    (finalizer (fun a b : Int => max a b) id ⟨[3, 1, 5, 2], false⟩ (2 + 1)).map Prod.fst =
      .ok (([1, 5, 2].take 2).foldl (fun a b : Int => max a b) 3) ∧
    ∃ rs, site_results (fun a b : Int => max a b) id [3, 1, 5, 2] = .ok rs ∧
      rs[2 + 1]? = some (([1, 5, 2].take 2).foldl (fun a b : Int => max a b) 3) :=
  idempotent_seed_fold (fun a b : Int => max a b) id 3 [1, 5, 2] 2 (by decide) (by decide)

/-- C27: for buffers of one length `N ≥ 2`, every `op` and every site `k` with
`1 ≤ k < N`, two complete buffers that agree on all indices below `k` give site `k` the
same result; and two buffers that differ at most in the contribution of the last site
`N - 1` give every site the same result. -/
theorem result_depends_on_lower_sites (op : α → α → α) (moved : α → α) (d d1 : List α)
    (hlen : d.length = d1.length) (hN : 2 ≤ d.length) :
    (∀ k, 1 ≤ k → k < d.length → (∀ j, j < k → d[j]? = d1[j]?) →
      ∃ r, (finalizer op moved ⟨d, false⟩ k).map Prod.fst = .ok r ∧
        (finalizer op moved ⟨d1, false⟩ k).map Prod.fst = .ok r) ∧
    ((∀ j, j + 1 < d.length → d[j]? = d1[j]?) → ∀ k, k < d.length →
      ∃ r, (finalizer op moved ⟨d, false⟩ k).map Prod.fst = .ok r ∧
        (finalizer op moved ⟨d1, false⟩ k).map Prod.fst = .ok r) := by
  constructor
  · intro k hk1 hk hagree
    exact finalizer_agree op moved d d1 k hlen hk (hagree 0 (by omega)) hagree
  · intro hlast k hk
    exact finalizer_agree op moved d d1 k hlen hk (hlast 0 (by omega))
      (fun j hj => hlast j (by omega))

/-- Witness of C27: the buffers `[1, 2, 3, 4]` and `[1, 2, 8, 9]` agree below index 2 and
give site 2 the same result. -/
theorem result_depends_on_lower_sites_witness :
    ∃ r, (finalizer (fun a b : Int => a + b) id ⟨[1, 2, 3, 4], false⟩ 2).map Prod.fst =
        .ok r ∧
      (finalizer (fun a b : Int => a + b) id ⟨[1, 2, 8, 9], false⟩ 2).map Prod.fst = .ok r :=
  (result_depends_on_lower_sites (fun a b : Int => a + b) id [1, 2, 3, 4] [1, 2, 8, 9] rfl
    (by decide)).1 2 (by decide) (by decide)
    (by
      intro j hj
      match j, hj with
      | 0, _ => rfl
      | 1, _ => rfl
      | j + 2, h => exact absurd h (by omega))

/-- C28: the finalizer is total on its domain.  On every slot, an invocation for a site `w`
below the length `N` of the buffer returns a value: the read of the seed and the read of
`data[w]` are in bounds.  An invocation reaches an access outside the buffer exactly when
`N ≤ w`, which is every `w` on the empty buffer. -/
theorem finalizer_in_bounds (op : α → α → α) (moved : α → α) (s : slot α) (w : Nat) :
    (w < s.data.length → ∃ r s1, finalizer op moved s w = .ok (r, s1)) ∧
    (s.data.length ≤ w → finalizer op moved s w = .error .out_of_bounds_access) ∧
    (∀ e, finalizer op moved s w = .error e → s.data = [] ∨ s.data.length ≤ w) := by
  have htotal : w < s.data.length → ∃ r s1, finalizer op moved s w = .ok (r, s1) := by
    intro hw
    obtain ⟨r, s1, hrun, -, -⟩ := finalizer_total op moved s w hw
    exact ⟨r, s1, hrun⟩
  refine ⟨htotal, ?_, ?_⟩
  · intro hge
    obtain ⟨data, av⟩ := s
    cases av with
    | true => simp [finalizer, List.getElem?_eq_none hge]
    | false =>
      cases data with
      | nil => simp [finalizer]
      | cons v0 rest =>
        have hnone : (hpx.exclusive_scan op (v0 :: rest) v0)[w]? = none :=
          List.getElem?_eq_none (by rw [exclusive_scan_length]; exact hge)
        rw [finalizer_first]
        simp [finalizer, hnone]
  · intro e he
    by_cases hw : w < s.data.length
    · obtain ⟨r, s1, hrun⟩ := htotal hw
      rw [hrun] at he
      cases he
    · exact Or.inr (Nat.le_of_not_lt hw)

/-- Witness of C28: site 3 of the complete buffer `[1, 2, 3, 4]` is served, site 4 and
the empty buffer are not. -/
theorem finalizer_in_bounds_witness :
    (∃ r s1, finalizer (fun a b : Int => a + b) id ⟨[1, 2, 3, 4], false⟩ 3 = .ok (r, s1)) ∧
    finalizer (fun a b : Int => a + b) id ⟨[1, 2, 3, 4], false⟩ 4 =
      .error .out_of_bounds_access ∧
    finalizer (fun a b : Int => a + b) id ⟨[], false⟩ 0 = .error .out_of_bounds_access :=
  ⟨(finalizer_in_bounds (fun a b : Int => a + b) id ⟨[1, 2, 3, 4], false⟩ 3).1 (by decide),
    (finalizer_in_bounds (fun a b : Int => a + b) id ⟨[1, 2, 3, 4], false⟩ 4).2.1
      (by decide),
    (finalizer_in_bounds (fun a b : Int => a + b) id ⟨[], false⟩ 0).2.1 (by decide)⟩

end traits

namespace collectives

/-! ## Preservation of the arguments -/

/-- C25: argument preservation.  The communicator overload returns the `bad_parameter`
future exactly when the generation is 0.  For every other generation it dispatches one
contribution, which carries the communicator, the site (the locality id when `this_site`
was left unset), the generation, the local value and `op`, in that order and unchanged;
delivered through `get`, the site and the generation reach `handle_data` as they are, the
step function stores the local value and the finalizer combines with `op`. -/
theorem arguments_preserved (rt : runtime κ α) (fid : κ) (local_result : α)
    (op : α → α → α) (this_site generation : Nat) :
    (exclusive_scan rt fid local_result op this_site generation =
        .ok (.exceptional .bad_parameter) ↔ generation = 0) ∧
    (generation ≠ 0 →
      ∃ call, exclusive_scan rt fid local_result op this_site generation =
          .ok (.dispatched call) ∧
        call.c = fid ∧
        call.this_site = (if this_site = unset then rt.locality_id else this_site) ∧
        call.generation = generation ∧ call.local_result = local_result ∧ call.op = op ∧
        ∀ (moved : α → α) (data : List α) (s : traits.slot α),
          traits.get moved (fun which gen st fin => (which, gen, st data which, fin s which))
              call.this_site call.generation call.local_result call.op =
            (call.this_site, generation, traits.step data call.this_site local_result,
              traits.finalizer op moved s call.this_site)) := by
  constructor
  · by_cases hg : generation = 0
    · simp [exclusive_scan, hg]
    · simp [exclusive_scan, hg]
  · intro hg
    refine ⟨⟨fid, if this_site = unset then rt.locality_id else this_site, generation,
      local_result, op⟩, by simp [exclusive_scan, hg], rfl, rfl, rfl, rfl, rfl, ?_⟩
    intro moved data s
    rfl

/-- Witness of C25: site 2, generation 7 and the value 5 on the reference runtime. -/
theorem arguments_preserved_witness :
    ∃ call, exclusive_scan reference_runtime ⟨"scan", 4, 2, 7, 0⟩ 5 (fun a b => a + b) 2 7 =
        .ok (.dispatched call) ∧
      call.this_site = 2 ∧ call.generation = 7 ∧ call.local_result = 5 := by
  obtain ⟨call, hcall, -, hsite, hgen, hval, -, -⟩ :=
    (arguments_preserved reference_runtime ⟨"scan", 4, 2, 7, 0⟩ 5 (fun a b => a + b) 2
      7).2 (by decide)
  exact ⟨call, hcall, hsite, hgen, hval⟩

end collectives

namespace components.process.windows

/-! ## The claims on `windows::child` -/

theorem destroy_moved_from (p : PROCESS_INFORMATION) :
    child.destroy
      ⟨{ p with hProcess := INVALID_HANDLE_VALUE, hThread := INVALID_HANDLE_VALUE }⟩ = [] := by
  simp [child.destroy]

/-- C29, counterexample: a child whose `proc_info` holds the valid handle 9 in both handle
fields.  After the move construction, destroying both objects passes 9 to `CloseHandle`
twice. -/
theorem one_handle_in_both_fields :
    (9 : HANDLE) ≠ INVALID_HANDLE_VALUE ∧
    (child.move_construct ⟨⟨9, 9, 1, 1⟩⟩).1.destroy ++
      (child.move_construct ⟨⟨9, 9, 1, 1⟩⟩).2.destroy = [9, 9] ∧
    ((child.move_construct ⟨⟨9, 9, 1, 1⟩⟩).1.destroy ++
      (child.move_construct ⟨⟨9, 9, 1, 1⟩⟩).2.destroy).count 9 = 2 := by
  refine ⟨by decide, ?_, ?_⟩
  · simp [child.move_construct, child.destroy, INVALID_HANDLE_VALUE]
  · simp [child.move_construct, child.destroy, INVALID_HANDLE_VALUE]

/-- C29, amended: move construction transfers ownership.  The child constructed from `c`
holds the `proc_info` `c` had, so its `process_handle()` is the former process handle of
`c`; afterwards `hProcess` and `hThread` of `c` are `INVALID_HANDLE_VALUE` and its other
fields are as before.  Destroying both objects, in either order, makes the `CloseHandle`
calls the destruction of `c` alone would have made before the move, one for each handle
field that is not `INVALID_HANDLE_VALUE` and none for `INVALID_HANDLE_VALUE`; when the
process handle and the thread handle of `c` differ, each valid handle is closed exactly
once. -/
theorem move_construct_transfers (c : child) :
    (child.move_construct c).1.proc_info = c.proc_info ∧
    (child.move_construct c).1.process_handle = c.process_handle ∧
    (child.move_construct c).2.proc_info.hProcess = INVALID_HANDLE_VALUE ∧
    (child.move_construct c).2.proc_info.hThread = INVALID_HANDLE_VALUE ∧
    (child.move_construct c).2.proc_info.dwProcessId = c.proc_info.dwProcessId ∧
    (child.move_construct c).2.proc_info.dwThreadId = c.proc_info.dwThreadId ∧
    (child.move_construct c).2.destroy = [] ∧
    (child.move_construct c).1.destroy ++ (child.move_construct c).2.destroy = c.destroy ∧
    (child.move_construct c).2.destroy ++ (child.move_construct c).1.destroy = c.destroy ∧
    INVALID_HANDLE_VALUE ∉
      (child.move_construct c).1.destroy ++ (child.move_construct c).2.destroy ∧
    (∀ h, h ≠ INVALID_HANDLE_VALUE → c.proc_info.hProcess ≠ c.proc_info.hThread →
      (h = c.proc_info.hProcess ∨ h = c.proc_info.hThread) →
      ((child.move_construct c).1.destroy ++ (child.move_construct c).2.destroy).count h
        = 1) := by
  have hmoved : (child.move_construct c).2.destroy = [] := destroy_moved_from c.proc_info
  have hnew : (child.move_construct c).1.destroy = c.destroy := rfl
  refine ⟨rfl, rfl, rfl, rfl, rfl, rfl, hmoved, ?_, ?_, ?_, ?_⟩
  · rw [hmoved, hnew, List.append_nil]
  · rw [hmoved, hnew, List.nil_append]
  · rw [hmoved, hnew, List.append_nil]
    intro hmem
    unfold child.destroy at hmem
    by_cases hp : c.proc_info.hProcess = INVALID_HANDLE_VALUE <;>
      by_cases ht : c.proc_info.hThread = INVALID_HANDLE_VALUE <;>
      simp [hp, ht] at hmem
    · exact ht hmem.symm
    · exact hp hmem.symm
    · rcases hmem with hmem | hmem
      · exact hp hmem.symm
      · exact ht hmem.symm
  · intro h hvalid hne hh
    rw [hmoved, hnew, List.append_nil]
    unfold child.destroy
    rcases hh with hh | hh
    · subst hh
      by_cases ht : c.proc_info.hThread = INVALID_HANDLE_VALUE
      · simp [hvalid, ht]
      · simp [hvalid, ht, List.count_cons, Ne.symm hne]
    · subst hh
      by_cases hp : c.proc_info.hProcess = INVALID_HANDLE_VALUE
      · simp [hvalid, hp]
      · simp [hvalid, hp, List.count_cons, hne]

/-- Witness of the amended C29: the child with process handle 3 and thread handle 4; the
thread handle is closed exactly once when both objects are destroyed. -/
theorem move_construct_transfers_witness :
    ((child.move_construct ⟨⟨3, 4, 7, 8⟩⟩).1.destroy ++
      (child.move_construct ⟨⟨3, 4, 7, 8⟩⟩).2.destroy).count 4 = 1 :=
  (move_construct_transfers ⟨⟨3, 4, 7, 8⟩⟩).2.2.2.2.2.2.2.2.2.2 4 (by decide) (by decide)
    (Or.inr rfl)

/-- C30: evaluation of the move assignment on two distinct children, the target at address
0 with the handles 1 and 2 and the source at address 1 with the handles 3 and 4: the guard
`this == &c` fails, so both objects are left as they were and no handle is closed.  On a
self-assignment the guard holds: the handles 1 and 2 are closed and the object is left
with `INVALID_HANDLE_VALUE` in both handle fields. -/
theorem move_assign_of_distinct_children :
    (child.move_assign
      (fun a => if a = 0 then ⟨⟨1, 2, 5, 6⟩⟩ else ⟨⟨3, 4, 7, 8⟩⟩) 0 1).1 0 =
        ⟨⟨1, 2, 5, 6⟩⟩ ∧
    (child.move_assign
      (fun a => if a = 0 then ⟨⟨1, 2, 5, 6⟩⟩ else ⟨⟨3, 4, 7, 8⟩⟩) 0 1).1 1 =
        ⟨⟨3, 4, 7, 8⟩⟩ ∧
    (child.move_assign
      (fun a => if a = 0 then ⟨⟨1, 2, 5, 6⟩⟩ else ⟨⟨3, 4, 7, 8⟩⟩) 0 1).2 = [] ∧
    (child.move_assign
      (fun a => if a = 0 then ⟨⟨1, 2, 5, 6⟩⟩ else ⟨⟨3, 4, 7, 8⟩⟩) 0 0).1 0 =
        ⟨⟨INVALID_HANDLE_VALUE, INVALID_HANDLE_VALUE, 5, 6⟩⟩ ∧
    (child.move_assign
      (fun a => if a = 0 then ⟨⟨1, 2, 5, 6⟩⟩ else ⟨⟨3, 4, 7, 8⟩⟩) 0 0).2 = [1, 2] := by
  refine ⟨rfl, rfl, rfl, ?_, ?_⟩
  · simp [child.move_assign, Function.update]
  · simp [child.move_assign, child.destroy, INVALID_HANDLE_VALUE]

end components.process.windows

namespace traits

/-! ## Validation of the site at the arrival -/

end traits

end hpx
